import Mathlib

/-! # tally: league table aggregation and ranking

A shallow embedding of the Go package `tournament` (file
`tournament/tournament.go`) together with theorems about it.

Conventions of the embedding.

* Go `int` counters are `Int`.  Every counter of a row grows by at most three
  per match side, and a Go slice of `Match` values (40 bytes each) has far
  fewer than `2^58` elements, so the 64-bit counters never wrap and unbounded
  integers describe them exactly.
* Go `string` is `String`; `==` is equality and `<` the lexicographic order
  (Go compares the UTF-8 bytes, which orders strings exactly as comparing
  their code points does).
* Go `map[K]V` is a list of key/value entries with pairwise different keys;
  a lookup that misses yields the zero value of `V`.
* `range` over a map visits the entries in an order the language leaves
  open.  That order is an explicit argument (`RangeOrder`).
* A `*Table` that is updated in place and returned is a function from the
  old table to the new one.
-/

namespace tournament

/-! ## Data model -/

/-- Result of a match; the value of an outcome is the number of points earned
(`type Outcome int`). -/
abbrev Outcome := Int

/-- Constant `Loss Outcome = 0`. -/
def Loss : Outcome := 0

/-- Constant `Draw Outcome = 1`. -/
def Draw : Outcome := 1

/-- Constant `Win Outcome = 3`. -/
def Win : Outcome := 3

/-- Constant `Asc = "asc"`. -/
def Asc : String := "asc"

/-- Constant `Desc = "desc"`. -/
def Desc : String := "desc"

/-- One fixture; `Outcome` is the result of the home team. -/
structure Match where
  Home : String
  Away : String
  Outcome : Outcome
deriving DecidableEq, Repr

/-- Aggregate of one team. -/
structure TableRow where
  Team : String
  MatchPlayed : Int
  MatchesWon : Int
  MatchesDrawn : Int
  MatchesLost : Int
  Points : Int
deriving DecidableEq, Repr

/-- The tournament table. -/
structure Table where
  Rows : List TableRow
deriving DecidableEq, Repr

/-- Zero value of `TableRow`, which a missing map key yields. -/
def zeroRow : TableRow :=
  { Team := "", MatchPlayed := 0, MatchesWon := 0, MatchesDrawn := 0,
    MatchesLost := 0, Points := 0 }

/-! ## Go maps -/

/-- Entries of a `map[string]TableRow`. -/
abbrev RowMap := List (String × TableRow)

/-- Map read `v, ok := m[k]`: the stored value, or nothing when `ok` is false. -/
def mapGet {β : Type} : List (String × β) → String → Option β
  | [], _ => none
  | (k, v) :: rest, key => if k = key then some v else mapGet rest key

/-- Map write `m[k] = v`: replaces the value of an existing key, otherwise adds
an entry. -/
def mapSet {β : Type} : List (String × β) → String → β → List (String × β)
  | [], key, val => [(key, val)]
  | (k, v) :: rest, key, val =>
    if k = key then (k, val) :: rest else (k, v) :: mapSet rest key val

/-- Order in which one `range` loop visits the entries of a map: some
rearrangement of the entries. -/
structure RangeOrder where
  visit : RowMap → RowMap
  perm : ∀ m, (visit m).Perm m

/-- The iteration order that follows the order of insertion. -/
def RangeOrder.insertion : RangeOrder := ⟨fun m => m, fun m => List.Perm.refl m⟩

/-- The iteration order opposite to the order of insertion. -/
def RangeOrder.reversed : RangeOrder := ⟨List.reverse, List.reverse_perm⟩

/-! ## Aggregation -/

/-- Source `isExpectedOutcome`: 1 when the outcome is the expected one, else 0. -/
def isExpectedOutcome (outcome expected : Outcome) : Int :=
  if outcome = expected then 1 else 0

/-- Source `setRowOutcome`: adds one outcome to the counters and the points of
a row. -/
def setRowOutcome (outcome : Outcome) (row : TableRow) : TableRow :=
  let isWin := isExpectedOutcome outcome Win
  let isDraw := isExpectedOutcome outcome Draw
  let isLoss := isExpectedOutcome outcome Loss
  let row := { row with MatchesWon := row.MatchesWon + isWin }
  let row := { row with MatchesDrawn := row.MatchesDrawn + isDraw }
  let row := { row with MatchesLost := row.MatchesLost + isLoss }
  if isWin = 1 then { row with Points := row.Points + Win }
  else if isDraw = 1 then { row with Points := row.Points + Draw }
  else { row with Points := row.Points + Loss }

/-- The map literal of `awayOutcome`. -/
def mapToAwayOutcome : List (Outcome × Outcome) :=
  [(Win, Loss), (Draw, Draw), (Loss, Win)]

/-- Source `awayOutcome`: the result of the away team, read from the map
literal; an outcome that is no key yields the zero value. -/
def awayOutcome (outcome : Outcome) : Outcome :=
  ((mapToAwayOutcome.find? (fun e => e.1 = outcome)).map Prod.snd).getD 0

/-- One side of a match inside the loop of `BuildTable`: the row of `team` is
read from `seen`; a missing row starts from the zero row with the team name and
one match played, an existing row gets one more match played; the outcome is
added and the row is written back. -/
def updateSide (seen : RowMap) (team : String) (outcome : Outcome) : RowMap :=
  match mapGet seen team with
  | none =>
    let row := { zeroRow with Team := team }
    let row := { row with MatchPlayed := 1 }
    mapSet seen team (setRowOutcome outcome row)
  | some row =>
    let row := { row with MatchPlayed := row.MatchPlayed + 1 }
    mapSet seen team (setRowOutcome outcome row)

/-- Body of the loop over the matches in `BuildTable`: first the home side, then
the away side with the mirrored outcome. -/
def foldMatch (seen : RowMap) (m : Match) : RowMap :=
  updateSide (updateSide seen m.Home m.Outcome) m.Away (awayOutcome m.Outcome)

/-- The map `seen` of `BuildTable` after the loop over the matches. -/
def seenRows (ms : List Match) : RowMap :=
  ms.foldl foldMatch []

/-- Source `BuildTable`: folds the matches into the map `seen` and appends the
rows to the table in the order in which `range` visits the map. -/
def BuildTable (ρ : RangeOrder) (ms : List Match) : Table :=
  { Rows := (ρ.visit (seenRows ms)).map Prod.snd }

/-! ## Ranking -/

/-- Go `a < b` on strings: lexicographic comparison. -/
def strLess (a b : String) : Bool :=
  decide (a.data < b.data)

/-- The comparison closure that `Sort` hands to `sort.SliceStable`, as a
function of the two rows `t.Rows[i]` and `t.Rows[j]`. -/
def rowLess (order : String) (a b : TableRow) : Bool :=
  if a.Points = b.Points then
    if order = Asc then strLess a.Team b.Team
    else strLess b.Team a.Team
  else if order = Asc then decide (a.Points < b.Points)
  else decide (a.Points > b.Points)

/-- Inner loop of the library insertion sort, `for j := i; j > a && less(j, j-1);
j-- swap(j, j-1)`: the new element `x` moves towards the front past every
element it is less than.  The sorted part before `x` is given back to front,
its last element first. -/
def sinkInto {α : Type} (less : α → α → Bool) (x : α) : List α → List α
  | [] => [x]
  | y :: front => if less x y then y :: sinkInto less x front else x :: y :: front

/-- Go `sort.SliceStable(rows, less)`.  The standard library is not part of the
repository; it is embedded as its stable insertion sort, which takes the
elements from left to right and sinks each one into the sorted part before it.
The library runs this very loop on blocks of 20 elements and merges the blocks
of a longer slice with a stable merge; for a comparison that is a strict weak
order, as the one of `Sort` is, both give the one stable sorted arrangement. -/
def SliceStable {α : Type} (less : α → α → Bool) (rows : List α) : List α :=
  (rows.foldl (fun sortedPart x => sinkInto less x sortedPart) []).reverse

/-- Source `Table.Sort`: sorts the rows stably with the comparison of `rowLess`
and returns the table. -/
def Table.Sort (t : Table) (order : String) : Table :=
  { Rows := SliceStable (rowLess order) t.Rows }

/-- Source `Tally`: builds the table and sorts it in descending order. -/
def Tally (ρ : RangeOrder) (ms : List Match) : Table :=
  let t := BuildTable ρ ms
  Table.Sort t Desc

/-! ## Parsing -/

/-- The map literal of `parseOutcome`. -/
def outcomes : List (String × Outcome) :=
  [("draw", Draw), ("loss", Loss), ("win", Win)]

/-- Source `parseOutcome`: reads the token from the map literal; a token that is
no key yields the zero value of `Outcome`. -/
def parseOutcome (outcome : String) : Outcome :=
  (mapGet outcomes outcome).getD 0

/-- Source `parseRecord`: fields 0, 1 and 2 of a record.  The reader hands over
records of exactly three fields only. -/
def parseRecord (record : List String) : Match :=
  { Home := record.getD 0 "",
    Away := record.getD 1 "",
    Outcome := parseOutcome (record.getD 2 "") }

/-- Errors of the CSV reader.  `quotedField` marks a record with a field that
opens with a double quote: the library then reads a quoted field, possibly
across lines, which this embedding does not follow; the statements on which
texts parse without an error are made for input without double quotes. -/
inductive CsvError where
  | fieldCount
  | bareQuote
  | quotedField
deriving DecidableEq, Repr

/-- Pieces of a text between the occurrences of a separator character. -/
def splitAtChar (sep : Char) : List Char → List (List Char)
  | [] => [[]]
  | c :: cs =>
    if c = sep then [] :: splitAtChar sep cs
    else match splitAtChar sep cs with
      | [] => [[c]]
      | piece :: pieces => (c :: piece) :: pieces

/-- A line without one trailing carriage return: the reader turns a final
`\r\n` into `\n` and drops a `\r` that ends the input. -/
def dropCR (line : List Char) : List Char :=
  if line.getLast? = some '\r' then line.dropLast else line

/-- The double quote character (code point 34). -/
def quoteChar : Char := Char.ofNat 34

/-- The fields of a line, checked from left to right as the reader meets them:
a field that opens with a double quote leaves the embedded fragment, a double
quote inside a field is a bare-quote error. -/
def checkFields : List (List Char) → Except CsvError (List String)
  | [] => .ok []
  | field :: rest =>
    if field.head? = some quoteChar then .error .quotedField
    else if quoteChar ∈ field then .error .bareQuote
    else match checkFields rest with
      | .error e => .error e
      | .ok fields => .ok (String.mk field :: fields)

/-- Modelled from the spec: one call of `csv.Reader.Read` on a non-empty line,
for a reader with `Comma = ';'` and `FieldsPerRecord = 3` (the standard library
is not part of the repository source).  The line is cut at the semicolons and a
record with a number of fields other than three is a field-count error. -/
def readRecord (line : List Char) : Except CsvError (List String) :=
  match checkFields (splitAtChar ';' line) with
  | .error e => .error e
  | .ok fields => if fields.length = 3 then .ok fields else .error .fieldCount

/-- The loop of `ParseInput` over the remaining lines of the input: an empty
line is skipped by the reader, the end of the input ends the loop without an
error, a reader error returns the matches collected so far together with the
error, and a record is parsed and appended. -/
def parseLines : List (List Char) → List Match → List Match × Option CsvError
  | [], ms => (ms, none)
  | line :: rest, ms =>
    if dropCR line = [] then parseLines rest ms
    else match readRecord (dropCR line) with
      | .error e => (ms, some e)
      | .ok record => parseLines rest (ms ++ [parseRecord record])

/-- Source `ParseInput`: the pair `(matches, err)` it returns, `none` standing
for a nil error. -/
def ParseInput (input : String) : List Match × Option CsvError :=
  parseLines (splitAtChar '\n' input.data) []

/-- The input text of the test suite (`buildInput`). -/
def fixture : String :=
  "\nAllegoric Alaskans;Blithering Badgers;win\nDevastating Donkeys;Courageous Californians;draw\nDevastating Donkeys;Allegoric Alaskans;win\nCourageous Californians;Blithering Badgers;loss\nBlithering Badgers;Devastating Donkeys;loss\nAllegoric Alaskans;Courageous Californians;win\n"

/-! ## Auxiliary definitions for the statements and proofs -/

/-- Row of a team before its first match: the zero row under its name. -/
def blankRow (team : String) : TableRow :=
  { zeroRow with Team := team }

/-- Row stored for a team, the blank row when there is none. -/
def rowOf (seen : RowMap) (team : String) : TableRow :=
  (mapGet seen team).getD (blankRow team)

/-- The step that one side of a match applies to the row of its team. -/
def sideStep (o : Outcome) (r : TableRow) : TableRow :=
  setRowOutcome o { r with MatchPlayed := r.MatchPlayed + 1 }

/-- The row that the claim on aggregation describes for a team: every counter
is a number of matches of the list, counted per side. -/
def countedRow (T : String) (ms : List Match) : TableRow :=
  { Team := T,
    MatchPlayed :=
      (ms.countP (fun m => decide (m.Home = T)) + ms.countP (fun m => decide (m.Away = T)) : Nat),
    MatchesWon :=
      (ms.countP (fun m => decide (m.Home = T ∧ m.Outcome = Win)) +
        ms.countP (fun m => decide (m.Away = T ∧ m.Outcome = Loss)) : Nat),
    MatchesDrawn :=
      (ms.countP (fun m => decide (m.Home = T ∧ m.Outcome = Draw)) +
        ms.countP (fun m => decide (m.Away = T ∧ m.Outcome = Draw)) : Nat),
    MatchesLost :=
      (ms.countP (fun m => decide (m.Home = T ∧ m.Outcome = Loss)) +
        ms.countP (fun m => decide (m.Away = T ∧ m.Outcome = Win)) : Nat),
    Points :=
      3 * (ms.countP (fun m => decide (m.Home = T ∧ m.Outcome = Win)) +
        ms.countP (fun m => decide (m.Away = T ∧ m.Outcome = Loss)) : Nat) +
      (ms.countP (fun m => decide (m.Home = T ∧ m.Outcome = Draw)) +
        ms.countP (fun m => decide (m.Away = T ∧ m.Outcome = Draw)) : Nat) }

/-- A comparison under which insertion keeps a list sorted: `less` never holds
in both directions, and "not less" is transitive. -/
structure WeakOrder {α : Type} (less : α → α → Bool) : Prop where
  asymm : ∀ a b, less a b = true → less b a = false
  trans : ∀ a b c, less a b = false → less b c = false → less a c = false

/-- What one match does to the row of the team `k`. -/
def matchStep (k : String) (r : TableRow) (m : Match) : TableRow :=
  if m.Away = k then
    sideStep (awayOutcome m.Outcome) (if m.Home = k then sideStep m.Outcome r else r)
  else if m.Home = k then sideStep m.Outcome r
  else r

/-- The lines of an input text as the reader takes them: the pieces between the
newline characters, each without the carriage return of a `\r\n` line end. -/
def textLines (input : String) : List (List Char) :=
  (splitAtChar '\n' input.data).map dropCR

/-- The match that a line of three fields stands for: home team, away team and
outcome token, separated by semicolons. -/
def matchOfLine (line : List Char) : Match :=
  { Home := String.mk ((splitAtChar ';' line).getD 0 []),
    Away := String.mk ((splitAtChar ';' line).getD 1 []),
    Outcome := parseOutcome (String.mk ((splitAtChar ';' line).getD 2 [])) }

/-- The matches of the non-empty lines of a list, in the order of the lines. -/
def matchesOfLines (lines : List (List Char)) : List Match :=
  (lines.filter (fun l => decide (l ≠ []))).map matchOfLine

/-! ## Lemmas on maps -/

theorem mapGet_mapSet {β : Type} (m : List (String × β)) (k : String) (v : β) (k' : String) :
    mapGet (mapSet m k v) k' = if k = k' then some v else mapGet m k' := by
  induction m with
  | nil => simp [mapSet, mapGet]
  | cons e rest ih =>
    obtain ⟨a, b⟩ := e
    by_cases h : a = k
    · subst h
      by_cases h' : a = k' <;> simp [mapSet, mapGet, h']
    · by_cases h' : a = k'
      · subst h'
        have hk : ¬ k = a := fun hc => h hc.symm
        simp [mapSet, mapGet, h, hk]
      · simp [mapSet, mapGet, h, h', ih]

theorem keys_mapSet {β : Type} (m : List (String × β)) (k : String) (v : β) :
    (mapSet m k v).map Prod.fst =
      if k ∈ m.map Prod.fst then m.map Prod.fst else m.map Prod.fst ++ [k] := by
  induction m with
  | nil => simp [mapSet]
  | cons e rest ih =>
    obtain ⟨a, b⟩ := e
    by_cases h : a = k
    · subst h
      simp [mapSet]
    · have hk : ¬ k = a := fun hc => h hc.symm
      by_cases hmem : k ∈ rest.map Prod.fst
      · simp only [mapSet, h, if_false, List.map_cons, ih, hmem, if_true, List.mem_cons, or_true]
      · simp only [mapSet, h, if_false, List.map_cons, ih, hmem, List.mem_cons, hk, or_self,
          List.cons_append]

theorem mapGet_of_mem {β : Type} (m : List (String × β)) (k : String) (v : β)
    (hnd : (m.map Prod.fst).Nodup) (h : (k, v) ∈ m) : mapGet m k = some v := by
  induction m with
  | nil => simp at h
  | cons e rest ih =>
    obtain ⟨a, b⟩ := e
    simp only [List.map_cons, List.nodup_cons] at hnd
    rcases List.mem_cons.1 h with heq | hmem
    · cases heq
      simp [mapGet]
    · have hne : ¬ a = k := by
        intro hc
        subst hc
        exact hnd.1 (List.mem_map_of_mem Prod.fst hmem)
      simp [mapGet, hne, ih hnd.2 hmem]

/-! ## One side of a match -/

theorem updateSide_eq (seen : RowMap) (t : String) (o : Outcome) :
    updateSide seen t o = mapSet seen t
      (setRowOutcome o { rowOf seen t with MatchPlayed := (rowOf seen t).MatchPlayed + 1 }) := by
  unfold updateSide rowOf
  cases h : mapGet seen t <;> simp [blankRow, zeroRow]

theorem mapGet_updateSide (seen : RowMap) (t : String) (o : Outcome) (k : String) :
    mapGet (updateSide seen t o) k =
      if t = k then
        some (setRowOutcome o { rowOf seen t with MatchPlayed := (rowOf seen t).MatchPlayed + 1 })
      else mapGet seen k := by
  rw [updateSide_eq, mapGet_mapSet]

theorem rowOf_updateSide (seen : RowMap) (t : String) (o : Outcome) (k : String) :
    rowOf (updateSide seen t o) k =
      if t = k then
        setRowOutcome o { rowOf seen k with MatchPlayed := (rowOf seen k).MatchPlayed + 1 }
      else rowOf seen k := by
  by_cases h : t = k
  · subst h
    simp [rowOf, mapGet_updateSide]
  · simp [rowOf, mapGet_updateSide, h]

theorem keys_updateSide (seen : RowMap) (t : String) (o : Outcome) :
    (updateSide seen t o).map Prod.fst =
      if t ∈ seen.map Prod.fst then seen.map Prod.fst else seen.map Prod.fst ++ [t] := by
  rw [updateSide_eq, keys_mapSet]

theorem nodup_keys_updateSide (seen : RowMap) (t : String) (o : Outcome)
    (h : (seen.map Prod.fst).Nodup) : ((updateSide seen t o).map Prod.fst).Nodup := by
  rw [keys_updateSide]
  by_cases hm : t ∈ seen.map Prod.fst
  · simpa [hm] using h
  · simp only [hm, if_false]
    exact List.Nodup.append h (List.nodup_singleton t) (by simpa using hm)

theorem mem_keys_updateSide (seen : RowMap) (t : String) (o : Outcome) (k : String) :
    k ∈ (updateSide seen t o).map Prod.fst ↔ k = t ∨ k ∈ seen.map Prod.fst := by
  rw [keys_updateSide]
  by_cases hm : t ∈ seen.map Prod.fst
  · simp only [hm, if_true]
    constructor
    · exact Or.inr
    · rintro (rfl | h)
      · exact hm
      · exact h
  · simp only [hm, if_false, List.mem_append, List.mem_singleton]
    tauto

/-! ## The map after the loop -/

theorem seenRows_append (ms : List Match) (m : Match) :
    seenRows (ms ++ [m]) = foldMatch (seenRows ms) m := by
  simp [seenRows, List.foldl_append]

theorem nodup_keys_seenRows (ms : List Match) : ((seenRows ms).map Prod.fst).Nodup := by
  induction ms using List.reverseRecOn with
  | nil => simp [seenRows]
  | append_singleton ms m ih =>
    rw [seenRows_append]
    exact nodup_keys_updateSide _ _ _ (nodup_keys_updateSide _ _ _ ih)

theorem mem_keys_seenRows (ms : List Match) (k : String) :
    k ∈ (seenRows ms).map Prod.fst ↔ ∃ m ∈ ms, m.Home = k ∨ m.Away = k := by
  induction ms using List.reverseRecOn with
  | nil => simp [seenRows]
  | append_singleton ms m ih =>
    rw [seenRows_append, foldMatch, mem_keys_updateSide, mem_keys_updateSide, ih]
    constructor
    · rintro (h | h | ⟨m', hm', h⟩)
      · exact ⟨m, by simp, Or.inr h.symm⟩
      · exact ⟨m, by simp, Or.inl h.symm⟩
      · exact ⟨m', by simp [hm'], h⟩
    · rintro ⟨m', hm', h⟩
      rcases List.mem_append.1 hm' with hin | hin
      · exact Or.inr (Or.inr ⟨m', hin, h⟩)
      · have : m' = m := by simpa using hin
        subst this
        rcases h with h | h
        · exact Or.inr (Or.inl h.symm)
        · exact Or.inl h.symm

theorem rowOf_seenRows_append (ms : List Match) (m : Match) (k : String) :
    rowOf (seenRows (ms ++ [m])) k =
      let afterHome :=
        if m.Home = k then
          setRowOutcome m.Outcome
            { rowOf (seenRows ms) k with MatchPlayed := (rowOf (seenRows ms) k).MatchPlayed + 1 }
        else rowOf (seenRows ms) k
      if m.Away = k then
        setRowOutcome (awayOutcome m.Outcome)
          { afterHome with MatchPlayed := afterHome.MatchPlayed + 1 }
      else afterHome := by
  rw [seenRows_append, foldMatch, rowOf_updateSide]
  simp only [rowOf_updateSide]

/-- Rows of the built table are the values stored in the map. -/
theorem mem_rows_BuildTable (ρ : RangeOrder) (ms : List Match) (r : TableRow) :
    r ∈ (BuildTable ρ ms).Rows ↔ ∃ k, k ∈ (seenRows ms).map Prod.fst ∧ rowOf (seenRows ms) k = r := by
  unfold BuildTable
  simp only [List.mem_map]
  constructor
  · rintro ⟨⟨k, v⟩, hmem, rfl⟩
    have hmem' : (k, v) ∈ seenRows ms := (ρ.perm _).mem_iff.1 hmem
    refine ⟨k, ⟨(k, v), hmem', rfl⟩, ?_⟩
    simp [rowOf, mapGet_of_mem _ _ _ (nodup_keys_seenRows ms) hmem']
  · rintro ⟨k, ⟨⟨k', v⟩, hmem, hk⟩, rfl⟩
    simp only at hk
    subst hk
    refine ⟨(k', v), (ρ.perm _).mem_iff.2 hmem, ?_⟩
    simp [rowOf, mapGet_of_mem _ _ _ (nodup_keys_seenRows ms) hmem]

/-! ## Effect of one outcome on a row -/

theorem setRowOutcome_fields (o : Outcome) (r : TableRow) :
    setRowOutcome o r =
      { Team := r.Team,
        MatchPlayed := r.MatchPlayed,
        MatchesWon := r.MatchesWon + (if o = Win then 1 else 0),
        MatchesDrawn := r.MatchesDrawn + (if o = Draw then 1 else 0),
        MatchesLost := r.MatchesLost + (if o = Loss then 1 else 0),
        Points := r.Points + (if o = Win then 3 else if o = Draw then 1 else 0) } := by
  unfold setRowOutcome isExpectedOutcome
  simp only [Win, Draw, Loss]
  by_cases hw : o = 3
  · simp [hw]
  · by_cases hd : o = 1
    · simp [hd]
    · simp [hw, hd]

theorem sideStep_Team (o : Outcome) (r : TableRow) : (sideStep o r).Team = r.Team := by
  simp [sideStep, setRowOutcome_fields]

theorem sideStep_points (o : Outcome) (r : TableRow)
    (h : r.Points = 3 * r.MatchesWon + r.MatchesDrawn) :
    (sideStep o r).Points = 3 * (sideStep o r).MatchesWon + (sideStep o r).MatchesDrawn := by
  simp only [sideStep, setRowOutcome_fields, Win, Draw]
  by_cases hw : o = 3
  · subst hw
    simp
    omega
  · by_cases hd : o = 1
    · subst hd
      simp
      omega
    · simp only [hw, hd, if_false]
      omega

theorem sideStep_played (o : Outcome) (r : TableRow) (ho : o = Win ∨ o = Draw ∨ o = Loss)
    (h : r.MatchPlayed = r.MatchesWon + r.MatchesDrawn + r.MatchesLost) :
    (sideStep o r).MatchPlayed =
      (sideStep o r).MatchesWon + (sideStep o r).MatchesDrawn + (sideStep o r).MatchesLost := by
  simp only [sideStep, setRowOutcome_fields, Win, Draw, Loss] at ho ⊢
  rcases ho with ho | ho | ho <;> subst ho <;> simp <;> omega

theorem awayOutcome_Win : awayOutcome Win = Loss := by decide

theorem awayOutcome_Draw : awayOutcome Draw = Draw := by decide

theorem awayOutcome_Loss : awayOutcome Loss = Win := by decide

theorem valid_awayOutcome (o : Outcome) (h : o = Win ∨ o = Draw ∨ o = Loss) :
    awayOutcome o = Win ∨ awayOutcome o = Draw ∨ awayOutcome o = Loss := by
  rcases h with h | h | h <;> subst h
  · rw [awayOutcome_Win]; exact Or.inr (Or.inr rfl)
  · rw [awayOutcome_Draw]; exact Or.inr (Or.inl rfl)
  · rw [awayOutcome_Loss]; exact Or.inl rfl

/-! ## Invariants of the stored rows -/

theorem rowOf_seenRows_step (ms : List Match) (m : Match) (k : String) :
    rowOf (seenRows (ms ++ [m])) k =
      if m.Away = k then
        sideStep (awayOutcome m.Outcome)
          (if m.Home = k then sideStep m.Outcome (rowOf (seenRows ms) k)
           else rowOf (seenRows ms) k)
      else if m.Home = k then sideStep m.Outcome (rowOf (seenRows ms) k)
      else rowOf (seenRows ms) k := by
  rw [rowOf_seenRows_append]
  rfl

theorem rowOf_seenRows_nil (k : String) : rowOf (seenRows []) k = blankRow k := rfl

theorem team_rowOf_seenRows (ms : List Match) (k : String) :
    (rowOf (seenRows ms) k).Team = k := by
  induction ms using List.reverseRecOn with
  | nil => rfl
  | append_singleton ms m ih =>
    rw [rowOf_seenRows_step]
    by_cases ha : m.Away = k <;> by_cases hh : m.Home = k <;>
      simp only [ha, hh, if_true, if_false, sideStep_Team, ih]

theorem points_rowOf_seenRows (ms : List Match) (k : String) :
    (rowOf (seenRows ms) k).Points =
      3 * (rowOf (seenRows ms) k).MatchesWon + (rowOf (seenRows ms) k).MatchesDrawn := by
  induction ms using List.reverseRecOn with
  | nil => rfl
  | append_singleton ms m ih =>
    rw [rowOf_seenRows_step]
    by_cases ha : m.Away = k <;> by_cases hh : m.Home = k <;>
      simp only [ha, hh, if_true, if_false]
    · exact sideStep_points _ _ (sideStep_points _ _ ih)
    · exact sideStep_points _ _ ih
    · exact sideStep_points _ _ ih
    · exact ih

theorem played_rowOf_seenRows (ms : List Match)
    (hv : ∀ m ∈ ms, m.Outcome = Win ∨ m.Outcome = Draw ∨ m.Outcome = Loss) (k : String) :
    (rowOf (seenRows ms) k).MatchPlayed =
      (rowOf (seenRows ms) k).MatchesWon + (rowOf (seenRows ms) k).MatchesDrawn +
        (rowOf (seenRows ms) k).MatchesLost := by
  induction ms using List.reverseRecOn with
  | nil => rfl
  | append_singleton ms m ih =>
    have ih := ih (fun m' hm' => hv m' (by simp [hm']))
    have hm := hv m (by simp)
    have ha := valid_awayOutcome _ hm
    rw [rowOf_seenRows_step]
    by_cases hka : m.Away = k <;> by_cases hkh : m.Home = k <;>
      simp only [hka, hkh, if_true, if_false]
    · exact sideStep_played _ _ ha (sideStep_played _ _ hm ih)
    · exact sideStep_played _ _ ha ih
    · exact sideStep_played _ _ hm ih
    · exact ih

/-! ## Team names of the built table -/

theorem team_eq_key_of_mem (ms : List Match) (e : String × TableRow) (h : e ∈ seenRows ms) :
    e.2.Team = e.1 := by
  obtain ⟨k, v⟩ := e
  have hget := mapGet_of_mem _ _ _ (nodup_keys_seenRows ms) h
  have hrow : rowOf (seenRows ms) k = v := by simp [rowOf, hget]
  simpa [hrow] using team_rowOf_seenRows ms k

theorem teams_perm_keys (ρ : RangeOrder) (ms : List Match) :
    ((BuildTable ρ ms).Rows.map TableRow.Team).Perm ((seenRows ms).map Prod.fst) := by
  have h1 : (BuildTable ρ ms).Rows.map TableRow.Team =
      (ρ.visit (seenRows ms)).map (fun e => e.2.Team) := by
    simp [BuildTable, List.map_map, Function.comp_def]
  have h2 : (seenRows ms).map (fun e => e.2.Team) = (seenRows ms).map Prod.fst :=
    List.map_congr_left (fun e he => team_eq_key_of_mem ms e he)
  rw [h1, ← h2]
  exact (ρ.perm (seenRows ms)).map _

theorem nodup_teams_BuildTable (ρ : RangeOrder) (ms : List Match) :
    ((BuildTable ρ ms).Rows.map TableRow.Team).Nodup :=
  (teams_perm_keys ρ ms).nodup_iff.2 (nodup_keys_seenRows ms)

theorem mem_teams_BuildTable (ρ : RangeOrder) (ms : List Match) (T : String) :
    T ∈ (BuildTable ρ ms).Rows.map TableRow.Team ↔ ∃ m ∈ ms, m.Home = T ∨ m.Away = T := by
  rw [(teams_perm_keys ρ ms).mem_iff, mem_keys_seenRows]

theorem filter_eq_singleton {α β : Type} [DecidableEq β] (f : α → β) (l : List α)
    (hnd : (l.map f).Nodup) (r : α) (hr : r ∈ l) :
    l.filter (fun x => decide (f x = f r)) = [r] := by
  induction l with
  | nil => simp at hr
  | cons a l ih =>
    simp only [List.map_cons, List.nodup_cons] at hnd
    rcases List.mem_cons.1 hr with heq | hmem
    · subst heq
      have hnone : l.filter (fun x => decide (f x = f r)) = [] := by
        rw [List.filter_eq_nil_iff]
        intro x hx hfx
        have hfx' : f x = f r := by simpa using hfx
        exact hnd.1 (hfx' ▸ List.mem_map_of_mem f hx)
      simp [List.filter_cons, hnone]
    · have hne : ¬ f a = f r := fun hc => hnd.1 (hc ▸ List.mem_map_of_mem f hmem)
      simp [List.filter_cons, hne, ih hnd.2 hmem]

/-! ## Counting the matches of a team -/

theorem rowOf_seenRows_eq_countedRow (ms : List Match)
    (hv : ∀ m ∈ ms, m.Outcome = Win ∨ m.Outcome = Draw ∨ m.Outcome = Loss) (T : String) :
    rowOf (seenRows ms) T = countedRow T ms := by
  induction ms using List.reverseRecOn with
  | nil => rfl
  | append_singleton ms m ih =>
    have ih := ih (fun m' hm' => hv m' (by simp [hm']))
    have hm := hv m (by simp)
    rw [rowOf_seenRows_step, ih]
    obtain ⟨home, away, o⟩ := m
    simp only at hm ⊢
    have e31 : ¬ ((3 : Int) = 1) := by decide
    have e30 : ¬ ((3 : Int) = 0) := by decide
    have e13 : ¬ ((1 : Int) = 3) := by decide
    have e10 : ¬ ((1 : Int) = 0) := by decide
    have e03 : ¬ ((0 : Int) = 3) := by decide
    have e01 : ¬ ((0 : Int) = 1) := by decide
    have a3 : awayOutcome 3 = 0 := by decide
    have a1 : awayOutcome 1 = 1 := by decide
    have a0 : awayOutcome 0 = 3 := by decide
    rcases hm with hm | hm | hm <;> subst hm <;>
      by_cases ha : away = T <;> by_cases hh : home = T <;>
      simp only [ha, hh, if_true, if_false, awayOutcome_Win, awayOutcome_Draw, awayOutcome_Loss,
        sideStep, setRowOutcome_fields, countedRow, a3, a1, a0, List.countP_append, List.countP_cons,
        List.countP_nil, Win, Draw, Loss, e31, e30, e13, e10, e03, e01, true_and, false_and,
        and_true, and_false, decide_True, decide_False, TableRow.mk.injEq] <;>
      simp <;> omega

/-! ## The stable sort -/

theorem sinkInto_perm {α : Type} (less : α → α → Bool) (x : α) (front : List α) :
    (sinkInto less x front).Perm (x :: front) := by
  induction front with
  | nil => exact List.Perm.refl _
  | cons y front ih =>
    unfold sinkInto
    by_cases h : less x y = true
    · rw [if_pos h]
      exact (List.Perm.cons y ih).trans (List.Perm.swap x y front)
    · rw [if_neg h]

theorem foldl_sinkInto_perm {α : Type} (less : α → α → Bool) (rows sortedPart : List α) :
    (rows.foldl (fun part x => sinkInto less x part) sortedPart).Perm (rows ++ sortedPart) := by
  induction rows generalizing sortedPart with
  | nil => exact List.Perm.refl _
  | cons x rows ih =>
    simp only [List.foldl_cons, List.cons_append]
    refine (ih _).trans ?_
    refine (List.Perm.append_left rows (sinkInto_perm less x sortedPart)).trans ?_
    exact List.perm_middle

theorem SliceStable_perm {α : Type} (less : α → α → Bool) (rows : List α) :
    (SliceStable less rows).Perm rows := by
  unfold SliceStable
  refine (List.reverse_perm _).trans ?_
  simpa using foldl_sinkInto_perm less rows []

theorem sinkInto_pairwise {α : Type} (less : α → α → Bool) (hw : WeakOrder less) (x : α)
    (front : List α) (h : front.Pairwise (fun a b => less a b = false)) :
    (sinkInto less x front).Pairwise (fun a b => less a b = false) := by
  induction front with
  | nil => simp [sinkInto]
  | cons y front ih =>
    rw [List.pairwise_cons] at h
    unfold sinkInto
    by_cases hxy : less x y = true
    · rw [if_pos hxy, List.pairwise_cons]
      refine ⟨?_, ih h.2⟩
      intro z hz
      rcases List.mem_cons.1 ((sinkInto_perm less x front).mem_iff.1 hz) with rfl | hz'
      · exact hw.asymm _ _ hxy
      · exact h.1 z hz'
    · rw [if_neg hxy]
      have hxy' : less x y = false := by simpa using hxy
      rw [List.pairwise_cons]
      refine ⟨?_, List.pairwise_cons.2 h⟩
      intro z hz
      rcases List.mem_cons.1 hz with rfl | hz'
      · exact hxy'
      · exact hw.trans _ _ _ hxy' (h.1 z hz')

theorem foldl_sinkInto_pairwise {α : Type} (less : α → α → Bool) (hw : WeakOrder less)
    (rows sortedPart : List α) (h : sortedPart.Pairwise (fun a b => less a b = false)) :
    (rows.foldl (fun part x => sinkInto less x part) sortedPart).Pairwise
      (fun a b => less a b = false) := by
  induction rows generalizing sortedPart with
  | nil => exact h
  | cons x rows ih => exact ih _ (sinkInto_pairwise less hw x sortedPart h)

/-- In the sorted list no later element is less than an earlier one. -/
theorem SliceStable_pairwise {α : Type} (less : α → α → Bool) (hw : WeakOrder less)
    (rows : List α) : (SliceStable less rows).Pairwise (fun a b => less b a = false) := by
  unfold SliceStable
  rw [List.pairwise_reverse]
  exact foldl_sinkInto_pairwise less hw rows [] List.Pairwise.nil

theorem pairwise_at {α : Type} (R : α → α → Prop) (l : List α) (h : l.Pairwise R)
    (i j : Nat) (hij : i < j) (a b : α) (ha : l[i]? = some a) (hb : l[j]? = some b) : R a b := by
  induction l generalizing i j with
  | nil => simp at ha
  | cons x xs ih =>
    rw [List.pairwise_cons] at h
    cases j with
    | zero => omega
    | succ j =>
      simp only [List.getElem?_cons_succ] at hb
      cases i with
      | zero =>
        simp only [List.getElem?_cons_zero, Option.some.injEq] at ha
        subst ha
        exact h.1 b (List.getElem?_mem hb)
      | succ i =>
        simp only [List.getElem?_cons_succ] at ha
        exact ih h.2 i j (by omega) ha hb

/-! ## The comparison of rows -/

theorem strLess_iff (a b : String) : strLess a b = true ↔ a < b := by
  unfold strLess
  rw [decide_eq_true_iff]
  exact String.lt_iff_toList_lt.symm

theorem strLess_eq_false_iff (a b : String) : strLess a b = false ↔ b ≤ a := by
  rw [← not_lt, ← strLess_iff]
  simp

theorem rowLess_Asc (a b : TableRow) :
    rowLess Asc a b = true ↔
      a.Points < b.Points ∨ (a.Points = b.Points ∧ a.Team < b.Team) := by
  unfold rowLess
  by_cases h : a.Points = b.Points
  · simp [h, strLess_iff]
  · simp [h]

theorem rowLess_of_ne_Asc (order : String) (ho : order ≠ Asc) (a b : TableRow) :
    rowLess order a b = true ↔
      b.Points < a.Points ∨ (a.Points = b.Points ∧ b.Team < a.Team) := by
  unfold rowLess
  by_cases h : a.Points = b.Points
  · simp [h, ho, strLess_iff]
  · simp [h, ho]

theorem rowLess_eq_false_Asc (a b : TableRow) :
    rowLess Asc a b = false ↔
      b.Points < a.Points ∨ (a.Points = b.Points ∧ b.Team ≤ a.Team) := by
  rw [← Bool.not_eq_true, rowLess_Asc]
  constructor
  · intro h
    rcases lt_trichotomy a.Points b.Points with hlt | heq | hgt
    · exact absurd (Or.inl hlt) h
    · exact Or.inr ⟨heq, not_lt.1 (fun hc => h (Or.inr ⟨heq, hc⟩))⟩
    · exact Or.inl hgt
  · rintro (h | ⟨h1, h2⟩) (h' | ⟨_, h4⟩)
    · omega
    · omega
    · omega
    · exact absurd h4 (not_lt.2 h2)

theorem rowLess_eq_false_of_ne_Asc (order : String) (ho : order ≠ Asc) (a b : TableRow) :
    rowLess order a b = false ↔
      a.Points < b.Points ∨ (a.Points = b.Points ∧ a.Team ≤ b.Team) := by
  rw [← Bool.not_eq_true, rowLess_of_ne_Asc order ho]
  constructor
  · intro h
    rcases lt_trichotomy a.Points b.Points with hlt | heq | hgt
    · exact Or.inl hlt
    · exact Or.inr ⟨heq, not_lt.1 (fun hc => h (Or.inr ⟨heq, hc⟩))⟩
    · exact absurd (Or.inl hgt) h
  · rintro (h | ⟨h1, h2⟩) (h' | ⟨_, h4⟩)
    · omega
    · omega
    · omega
    · exact absurd h4 (not_lt.2 h2)

theorem weakOrder_rowLess (order : String) : WeakOrder (rowLess order) := by
  by_cases ho : order = Asc
  · subst ho
    constructor
    · intro a b h
      rw [rowLess_Asc] at h
      rw [rowLess_eq_false_Asc]
      rcases h with h | ⟨h1, h2⟩
      · exact Or.inl h
      · exact Or.inr ⟨h1.symm, le_of_lt h2⟩
    · intro a b c hab hbc
      rw [rowLess_eq_false_Asc] at hab hbc ⊢
      rcases hab with h | ⟨h1, h2⟩ <;> rcases hbc with h' | ⟨h3, h4⟩
      · exact Or.inl (by omega)
      · exact Or.inl (by omega)
      · exact Or.inl (by omega)
      · exact Or.inr ⟨by omega, le_trans h4 h2⟩
  · constructor
    · intro a b h
      rw [rowLess_of_ne_Asc order ho] at h
      rw [rowLess_eq_false_of_ne_Asc order ho]
      rcases h with h | ⟨h1, h2⟩
      · exact Or.inl h
      · exact Or.inr ⟨h1.symm, le_of_lt h2⟩
    · intro a b c hab hbc
      rw [rowLess_eq_false_of_ne_Asc order ho] at hab hbc ⊢
      rcases hab with h | ⟨h1, h2⟩ <;> rcases hbc with h' | ⟨h3, h4⟩
      · exact Or.inl (by omega)
      · exact Or.inl (by omega)
      · exact Or.inl (by omega)
      · exact Or.inr ⟨by omega, le_trans h2 h4⟩

theorem Desc_ne_Asc : Desc ≠ Asc := by decide

/-! ## Uniqueness of the ranking -/

theorem sorted_perm_unique {α : Type} (R : α → α → Prop) (l₁ l₂ : List α) (hp : l₁.Perm l₂)
    (h₁ : l₁.Pairwise R) (h₂ : l₂.Pairwise R)
    (hanti : ∀ a ∈ l₁, ∀ b ∈ l₁, R a b → R b a → a = b) : l₁ = l₂ := by
  induction l₁ generalizing l₂ with
  | nil => exact (List.Perm.nil_eq hp)
  | cons a l₁ ih =>
    cases l₂ with
    | nil => exact absurd hp.length_eq (by simp)
    | cons b l₂ =>
      rw [List.pairwise_cons] at h₁ h₂
      have hab : a = b := by
        have ha : a ∈ b :: l₂ := hp.mem_iff.1 (List.mem_cons_self a l₁)
        have hb : b ∈ a :: l₁ := hp.mem_iff.2 (List.mem_cons_self b l₂)
        rcases List.mem_cons.1 ha with h | h
        · exact h
        · rcases List.mem_cons.1 hb with h' | h'
          · exact h'.symm
          · exact hanti a (List.mem_cons_self a l₁) b hb (h₁.1 b h') (h₂.1 a h)
      subst hab
      have hp' : l₁.Perm l₂ := hp.cons_inv
      rw [ih l₂ hp' h₁.2 h₂.2
        (fun x hx y hy => hanti x (List.mem_cons_of_mem _ hx) y (List.mem_cons_of_mem _ hy))]

theorem Sort_rows_perm (t : Table) (order : String) : (Table.Sort t order).Rows.Perm t.Rows :=
  SliceStable_perm (rowLess order) t.Rows

theorem Sort_rows_pairwise (t : Table) (order : String) :
    (Table.Sort t order).Rows.Pairwise (fun a b => rowLess order b a = false) :=
  SliceStable_pairwise (rowLess order) (weakOrder_rowLess order) t.Rows

theorem BuildTable_rows_perm (ρ ρ' : RangeOrder) (ms : List Match) :
    (BuildTable ρ ms).Rows.Perm (BuildTable ρ' ms).Rows := by
  unfold BuildTable
  exact ((ρ.perm _).trans (ρ'.perm _).symm).map _

/-- Sorting two tables with the same rows and pairwise different team names
gives the same sequence of rows. -/
theorem Sort_eq_of_perm (t t' : Table) (order : String) (hp : t.Rows.Perm t'.Rows)
    (hnd : (t.Rows.map TableRow.Team).Nodup) : Table.Sort t order = Table.Sort t' order := by
  have hperm : (Table.Sort t order).Rows.Perm (Table.Sort t' order).Rows :=
    ((Sort_rows_perm t order).trans hp).trans (Sort_rows_perm t' order).symm
  have hnd' : ((Table.Sort t order).Rows.map TableRow.Team).Nodup :=
    ((Sort_rows_perm t order).map TableRow.Team).nodup_iff.2 hnd
  have hrows : (Table.Sort t order).Rows = (Table.Sort t' order).Rows := by
    refine sorted_perm_unique _ _ _ hperm (Sort_rows_pairwise t order)
      (Sort_rows_pairwise t' order) ?_
    intro a ha b hb hab hba
    apply List.inj_on_of_nodup_map hnd' ha hb
    by_cases ho : order = Asc
    · subst ho
      rw [rowLess_eq_false_Asc] at hab hba
      rcases hab with h | ⟨_, h2⟩ <;> rcases hba with h' | ⟨_, h4⟩
      · omega
      · omega
      · omega
      · exact le_antisymm h2 h4
    · rw [rowLess_eq_false_of_ne_Asc order ho] at hab hba
      rcases hab with h | ⟨_, h2⟩ <;> rcases hba with h' | ⟨_, h4⟩
      · omega
      · omega
      · omega
      · exact le_antisymm h4 h2
  cases hT : Table.Sort t order
  cases hT' : Table.Sort t' order
  simp only [hT, hT'] at hrows
  rw [hrows]

theorem Tally_rangeOrder (ρ ρ' : RangeOrder) (ms : List Match) : Tally ρ ms = Tally ρ' ms :=
  Sort_eq_of_perm _ _ Desc (BuildTable_rows_perm ρ ρ' ms) (nodup_teams_BuildTable ρ ms)

/-! ## Claims -/

/-- C1: for matches with outcomes Win, Draw or Loss and a team `T` that occurs
in them, the built table has exactly one row for `T`; its counters are the
numbers of matches of `T` counted per side (home wins and away losses of the
home side are wins, and so on), and its points are three per win plus one per
draw.  A match of `T` against itself counts on both sides. -/
theorem BuildTable_row_counts (ρ : RangeOrder) (ms : List Match)
    (hv : ∀ m ∈ ms, m.Outcome = Win ∨ m.Outcome = Draw ∨ m.Outcome = Loss)
    (T : String) (hT : ∃ m ∈ ms, m.Home = T ∨ m.Away = T) :
    ∃ r : TableRow,
      (BuildTable ρ ms).Rows.filter (fun x => decide (x.Team = T)) = [r] ∧
      r.Team = T ∧
      r.MatchPlayed =
        (ms.countP (fun m => decide (m.Home = T)) +
          ms.countP (fun m => decide (m.Away = T)) : Nat) ∧
      r.MatchesWon =
        (ms.countP (fun m => decide (m.Home = T ∧ m.Outcome = Win)) +
          ms.countP (fun m => decide (m.Away = T ∧ m.Outcome = Loss)) : Nat) ∧
      r.MatchesDrawn =
        (ms.countP (fun m => decide (m.Home = T ∧ m.Outcome = Draw)) +
          ms.countP (fun m => decide (m.Away = T ∧ m.Outcome = Draw)) : Nat) ∧
      r.MatchesLost =
        (ms.countP (fun m => decide (m.Home = T ∧ m.Outcome = Loss)) +
          ms.countP (fun m => decide (m.Away = T ∧ m.Outcome = Win)) : Nat) ∧
      r.Points = 3 * r.MatchesWon + r.MatchesDrawn := by
  have hrow : rowOf (seenRows ms) T = countedRow T ms := rowOf_seenRows_eq_countedRow ms hv T
  have hmem : countedRow T ms ∈ (BuildTable ρ ms).Rows :=
    (mem_rows_BuildTable ρ ms _).2 ⟨T, (mem_keys_seenRows ms T).2 hT, hrow⟩
  have hone := filter_eq_singleton TableRow.Team (BuildTable ρ ms).Rows
    (nodup_teams_BuildTable ρ ms) (countedRow T ms) hmem
  refine ⟨countedRow T ms, hone, rfl, rfl, rfl, rfl, rfl, ?_⟩
  simp only [countedRow]

/-- Witness of C1: team A plays B at home and then itself. -/
theorem BuildTable_row_counts_witness :
    (∀ m ∈ [Match.mk "A" "B" Win, Match.mk "A" "A" Draw],
      m.Outcome = Win ∨ m.Outcome = Draw ∨ m.Outcome = Loss) ∧
    (∃ m ∈ [Match.mk "A" "B" Win, Match.mk "A" "A" Draw], m.Home = "A" ∨ m.Away = "A") ∧
    ∃ r : TableRow,
      (BuildTable RangeOrder.reversed [Match.mk "A" "B" Win, Match.mk "A" "A" Draw]).Rows.filter
        (fun x => decide (x.Team = "A")) = [r] ∧
      r.Team = "A" ∧
      r.MatchPlayed =
        (([Match.mk "A" "B" Win, Match.mk "A" "A" Draw].countP (fun m => decide (m.Home = "A")) +
          [Match.mk "A" "B" Win, Match.mk "A" "A" Draw].countP
            (fun m => decide (m.Away = "A")) : Nat) : Int) ∧
      r.MatchesWon =
        (([Match.mk "A" "B" Win, Match.mk "A" "A" Draw].countP
            (fun m => decide (m.Home = "A" ∧ m.Outcome = Win)) +
          [Match.mk "A" "B" Win, Match.mk "A" "A" Draw].countP
            (fun m => decide (m.Away = "A" ∧ m.Outcome = Loss)) : Nat) : Int) ∧
      r.MatchesDrawn =
        (([Match.mk "A" "B" Win, Match.mk "A" "A" Draw].countP
            (fun m => decide (m.Home = "A" ∧ m.Outcome = Draw)) +
          [Match.mk "A" "B" Win, Match.mk "A" "A" Draw].countP
            (fun m => decide (m.Away = "A" ∧ m.Outcome = Draw)) : Nat) : Int) ∧
      r.MatchesLost =
        (([Match.mk "A" "B" Win, Match.mk "A" "A" Draw].countP
            (fun m => decide (m.Home = "A" ∧ m.Outcome = Loss)) +
          [Match.mk "A" "B" Win, Match.mk "A" "A" Draw].countP
            (fun m => decide (m.Away = "A" ∧ m.Outcome = Win)) : Nat) : Int) ∧
      r.Points = 3 * r.MatchesWon + r.MatchesDrawn :=
  ⟨by decide, by decide,
    BuildTable_row_counts RangeOrder.reversed [Match.mk "A" "B" Win, Match.mk "A" "A" Draw]
      (by decide) "A" (by decide)⟩

/-- C2, as stated: it fails for an outcome that is none of the three constants.
After the single match A against B with outcome 2 a row has one match played
and no match won, drawn or lost. -/
theorem BuildTable_played_counterexample :
    ¬ ∀ r ∈ (BuildTable RangeOrder.insertion [Match.mk "A" "B" 2]).Rows,
      r.MatchPlayed = r.MatchesWon + r.MatchesDrawn + r.MatchesLost := by
  decide

/-- C2, amended: for matches whose outcomes are Win, Draw or Loss, every row of
the built table has as many matches played as won, drawn and lost together. -/
theorem BuildTable_played (ρ : RangeOrder) (ms : List Match)
    (hv : ∀ m ∈ ms, m.Outcome = Win ∨ m.Outcome = Draw ∨ m.Outcome = Loss)
    (r : TableRow) (hr : r ∈ (BuildTable ρ ms).Rows) :
    r.MatchPlayed = r.MatchesWon + r.MatchesDrawn + r.MatchesLost := by
  obtain ⟨k, _, rfl⟩ := (mem_rows_BuildTable ρ ms r).1 hr
  exact played_rowOf_seenRows ms hv k

/-- Witness of the amended C2: the row of B after a win and a draw of A at home. -/
theorem BuildTable_played_witness :
    (∀ m ∈ [Match.mk "A" "B" Win, Match.mk "A" "B" Draw],
      m.Outcome = Win ∨ m.Outcome = Draw ∨ m.Outcome = Loss) ∧
    TableRow.mk "B" 2 0 1 1 1 ∈
      (BuildTable RangeOrder.insertion [Match.mk "A" "B" Win, Match.mk "A" "B" Draw]).Rows ∧
    (TableRow.mk "B" 2 0 1 1 1).MatchPlayed =
      (TableRow.mk "B" 2 0 1 1 1).MatchesWon + (TableRow.mk "B" 2 0 1 1 1).MatchesDrawn +
        (TableRow.mk "B" 2 0 1 1 1).MatchesLost :=
  ⟨by decide, by decide,
    BuildTable_played RangeOrder.insertion [Match.mk "A" "B" Win, Match.mk "A" "B" Draw]
      (by decide) (TableRow.mk "B" 2 0 1 1 1) (by decide)⟩

/-- C3: for every list of matches, whatever the integer outcomes, every row of
the built table has three points per match won plus one per match drawn. -/
theorem BuildTable_points (ρ : RangeOrder) (ms : List Match) :
    ∀ r ∈ (BuildTable ρ ms).Rows, r.Points = 3 * r.MatchesWon + r.MatchesDrawn := by
  intro r hr
  obtain ⟨k, _, rfl⟩ := (mem_rows_BuildTable ρ ms r).1 hr
  exact points_rowOf_seenRows ms k

/-- Witness of C3: the row of B after a match with the outcome 2, which is none
of the three constants, and a home win of B. -/
theorem BuildTable_points_witness :
    TableRow.mk "B" 2 1 0 1 3 ∈
      (BuildTable RangeOrder.reversed [Match.mk "A" "B" 2, Match.mk "B" "A" Win]).Rows ∧
    (TableRow.mk "B" 2 1 0 1 3).Points =
      3 * (TableRow.mk "B" 2 1 0 1 3).MatchesWon + (TableRow.mk "B" 2 1 0 1 3).MatchesDrawn :=
  ⟨by decide,
    BuildTable_points RangeOrder.reversed [Match.mk "A" "B" 2, Match.mk "B" "A" Win]
      (TableRow.mk "B" 2 1 0 1 3) (by decide)⟩

/-- C4: the team names of the rows of the built table are pairwise distinct, a
name is among them exactly when it is the home or the away team of some match,
and so each such team has exactly one row. -/
theorem BuildTable_teams (ρ : RangeOrder) (ms : List Match) :
    ((BuildTable ρ ms).Rows.map TableRow.Team).Nodup ∧
    (∀ T, T ∈ (BuildTable ρ ms).Rows.map TableRow.Team ↔ ∃ m ∈ ms, m.Home = T ∨ m.Away = T) ∧
    (∀ T, (∃ m ∈ ms, m.Home = T ∨ m.Away = T) →
      ((BuildTable ρ ms).Rows.map TableRow.Team).count T = 1) := by
  refine ⟨nodup_teams_BuildTable ρ ms, mem_teams_BuildTable ρ ms, ?_⟩
  intro T hT
  exact List.count_eq_one_of_mem (nodup_teams_BuildTable ρ ms)
    ((mem_teams_BuildTable ρ ms T).2 hT)

/-- C5: in the result of `Sort` the points never increase from an earlier to a
later position under order Desc, and never decrease under order Asc. -/
theorem Sort_points_ordered (t : Table) (i j : Nat) (hij : i < j) :
    (∀ a b, (Table.Sort t Desc).Rows[i]? = some a → (Table.Sort t Desc).Rows[j]? = some b →
      a.Points ≥ b.Points) ∧
    (∀ a b, (Table.Sort t Asc).Rows[i]? = some a → (Table.Sort t Asc).Rows[j]? = some b →
      a.Points ≤ b.Points) := by
  constructor
  · intro a b ha hb
    have hd := pairwise_at _ _ (Sort_rows_pairwise t Desc) i j hij a b ha hb
    simp only [] at hd
    rw [rowLess_eq_false_of_ne_Asc Desc Desc_ne_Asc] at hd
    rcases hd with h | ⟨h, _⟩ <;> omega
  · intro a b ha hb
    have hasc := pairwise_at _ _ (Sort_rows_pairwise t Asc) i j hij a b ha hb
    simp only [] at hasc
    rw [rowLess_eq_false_Asc] at hasc
    rcases hasc with h | ⟨h, _⟩ <;> omega

/-- Witness of C5: three rows with 1, 7 and 3 points, positions 0 and 2. -/
theorem Sort_points_ordered_witness :
    (Table.Sort ⟨[⟨"C", 3, 0, 1, 2, 1⟩, ⟨"D", 3, 2, 1, 0, 7⟩, ⟨"B", 3, 1, 0, 2, 3⟩]⟩ Desc).Rows[0]?
      = some ⟨"D", 3, 2, 1, 0, 7⟩ ∧
    (Table.Sort ⟨[⟨"C", 3, 0, 1, 2, 1⟩, ⟨"D", 3, 2, 1, 0, 7⟩, ⟨"B", 3, 1, 0, 2, 3⟩]⟩ Desc).Rows[2]?
      = some ⟨"C", 3, 0, 1, 2, 1⟩ ∧
    (Table.Sort ⟨[⟨"C", 3, 0, 1, 2, 1⟩, ⟨"D", 3, 2, 1, 0, 7⟩, ⟨"B", 3, 1, 0, 2, 3⟩]⟩ Asc).Rows[0]?
      = some ⟨"C", 3, 0, 1, 2, 1⟩ ∧
    (Table.Sort ⟨[⟨"C", 3, 0, 1, 2, 1⟩, ⟨"D", 3, 2, 1, 0, 7⟩, ⟨"B", 3, 1, 0, 2, 3⟩]⟩ Asc).Rows[2]?
      = some ⟨"D", 3, 2, 1, 0, 7⟩ ∧
    (TableRow.mk "D" 3 2 1 0 7).Points ≥ (TableRow.mk "C" 3 0 1 2 1).Points ∧
    (TableRow.mk "C" 3 0 1 2 1).Points ≤ (TableRow.mk "D" 3 2 1 0 7).Points :=
  ⟨by decide, by decide, by decide, by decide,
    (Sort_points_ordered ⟨[⟨"C", 3, 0, 1, 2, 1⟩, ⟨"D", 3, 2, 1, 0, 7⟩, ⟨"B", 3, 1, 0, 2, 3⟩]⟩ 0 2
      (by decide)).1 ⟨"D", 3, 2, 1, 0, 7⟩ ⟨"C", 3, 0, 1, 2, 1⟩ (by decide) (by decide),
    (Sort_points_ordered ⟨[⟨"C", 3, 0, 1, 2, 1⟩, ⟨"D", 3, 2, 1, 0, 7⟩, ⟨"B", 3, 1, 0, 2, 3⟩]⟩ 0 2
      (by decide)).2 ⟨"C", 3, 0, 1, 2, 1⟩ ⟨"D", 3, 2, 1, 0, 7⟩ (by decide) (by decide)⟩

/-- C6: of two rows with equal points in the result of `Sort`, the earlier one
has the lexicographically greater or equal team name under order Desc and the
lexicographically less or equal team name under order Asc. -/
theorem Sort_ties_by_name (t : Table) (i j : Nat) (hij : i < j) :
    (∀ a b, (Table.Sort t Desc).Rows[i]? = some a → (Table.Sort t Desc).Rows[j]? = some b →
      a.Points = b.Points → a.Team ≥ b.Team) ∧
    (∀ a b, (Table.Sort t Asc).Rows[i]? = some a → (Table.Sort t Asc).Rows[j]? = some b →
      a.Points = b.Points → a.Team ≤ b.Team) := by
  constructor
  · intro a b ha hb hab
    have hd := pairwise_at _ _ (Sort_rows_pairwise t Desc) i j hij a b ha hb
    simp only [] at hd
    rw [rowLess_eq_false_of_ne_Asc Desc Desc_ne_Asc] at hd
    rcases hd with h | ⟨_, h⟩
    · omega
    · exact h
  · intro a b ha hb hab
    have hasc := pairwise_at _ _ (Sort_rows_pairwise t Asc) i j hij a b ha hb
    simp only [] at hasc
    rw [rowLess_eq_false_Asc] at hasc
    rcases hasc with h | ⟨_, h⟩
    · omega
    · exact h

/-- Witness of C6: the teams X and Y are level on three points. -/
theorem Sort_ties_by_name_witness :
    (Table.Sort ⟨[⟨"X", 1, 1, 0, 0, 3⟩, ⟨"Z", 1, 0, 0, 1, 0⟩, ⟨"Y", 1, 1, 0, 0, 3⟩]⟩ Desc).Rows[0]?
      = some ⟨"Y", 1, 1, 0, 0, 3⟩ ∧
    (Table.Sort ⟨[⟨"X", 1, 1, 0, 0, 3⟩, ⟨"Z", 1, 0, 0, 1, 0⟩, ⟨"Y", 1, 1, 0, 0, 3⟩]⟩ Desc).Rows[1]?
      = some ⟨"X", 1, 1, 0, 0, 3⟩ ∧
    (TableRow.mk "Y" 1 1 0 0 3).Team ≥ (TableRow.mk "X" 1 1 0 0 3).Team ∧
    (Table.Sort ⟨[⟨"Z", 1, 0, 0, 1, 0⟩, ⟨"Y", 1, 1, 0, 0, 3⟩, ⟨"X", 1, 1, 0, 0, 3⟩]⟩ Asc).Rows[1]?
      = some ⟨"X", 1, 1, 0, 0, 3⟩ ∧
    (Table.Sort ⟨[⟨"Z", 1, 0, 0, 1, 0⟩, ⟨"Y", 1, 1, 0, 0, 3⟩, ⟨"X", 1, 1, 0, 0, 3⟩]⟩ Asc).Rows[2]?
      = some ⟨"Y", 1, 1, 0, 0, 3⟩ ∧
    (TableRow.mk "X" 1 1 0 0 3).Team ≤ (TableRow.mk "Y" 1 1 0 0 3).Team :=
  ⟨by decide, by decide,
    (Sort_ties_by_name ⟨[⟨"X", 1, 1, 0, 0, 3⟩, ⟨"Z", 1, 0, 0, 1, 0⟩, ⟨"Y", 1, 1, 0, 0, 3⟩]⟩ 0 1
      (by decide)).1 ⟨"Y", 1, 1, 0, 0, 3⟩ ⟨"X", 1, 1, 0, 0, 3⟩ (by decide) (by decide) rfl,
    by decide, by decide,
    (Sort_ties_by_name ⟨[⟨"Z", 1, 0, 0, 1, 0⟩, ⟨"Y", 1, 1, 0, 0, 3⟩, ⟨"X", 1, 1, 0, 0, 3⟩]⟩ 1 2
      (by decide)).2 ⟨"X", 1, 1, 0, 0, 3⟩ ⟨"Y", 1, 1, 0, 0, 3⟩ (by decide) (by decide) rfl⟩

/-- C7: the rows of the result of `Sort` are a rearrangement of the rows of the
input table: the number of rows is the same and every row, with all six fields,
occurs as often as before. -/
theorem Sort_permutation (t : Table) (order : String) :
    (Table.Sort t order).Rows.Perm t.Rows ∧
    (Table.Sort t order).Rows.length = t.Rows.length ∧
    ∀ r : TableRow, (Table.Sort t order).Rows.count r = t.Rows.count r :=
  ⟨Sort_rows_perm t order, (Sort_rows_perm t order).length_eq,
    fun r => (Sort_rows_perm t order).count_eq r⟩

/-- C8: `Tally` is `Sort` with order Desc applied to the built table, in
whatever order the rows of the built table were emitted, and its rows stand in
non-increasing order of points. -/
theorem Tally_sorted_desc (ρ : RangeOrder) (ms : List Match) :
    Tally ρ ms = Table.Sort (BuildTable ρ ms) Desc ∧
    (∀ ρ' : RangeOrder, Tally ρ ms = Table.Sort (BuildTable ρ' ms) Desc) ∧
    (Tally ρ ms).Rows.Pairwise (fun a b => a.Points ≥ b.Points) := by
  refine ⟨rfl, fun ρ' => Tally_rangeOrder ρ ρ' ms, ?_⟩
  refine List.Pairwise.imp ?_ (Sort_rows_pairwise (BuildTable ρ ms) Desc)
  intro a b h
  rw [rowLess_eq_false_of_ne_Asc Desc Desc_ne_Asc] at h
  rcases h with h | ⟨h, _⟩ <;> omega

/-- C9, as stated: the row of the Badgers in the tally of the fixture does not
have zero matches lost. -/
theorem Tally_fixture_counterexample :
    (ParseInput fixture).2 = none ∧
    (Tally RangeOrder.insertion (ParseInput fixture).1).Rows ≠
      [⟨"Devastating Donkeys", 3, 2, 1, 0, 7⟩, ⟨"Allegoric Alaskans", 3, 2, 0, 1, 6⟩,
       ⟨"Blithering Badgers", 3, 1, 0, 0, 3⟩, ⟨"Courageous Californians", 3, 0, 1, 2, 1⟩] := by
  decide

/-- C9, amended: the fixture parses without an error and tallies, in order, to
Devastating Donkeys (3,2,1,0,7), Allegoric Alaskans (3,2,0,1,6), Blithering
Badgers (3,1,0,2,3) and Courageous Californians (3,0,1,2,1), whatever the
iteration order of the map. -/
theorem Tally_fixture (ρ : RangeOrder) :
    (ParseInput fixture).2 = none ∧
    (Tally ρ (ParseInput fixture).1).Rows =
      [⟨"Devastating Donkeys", 3, 2, 1, 0, 7⟩, ⟨"Allegoric Alaskans", 3, 2, 0, 1, 6⟩,
       ⟨"Blithering Badgers", 3, 1, 0, 2, 3⟩, ⟨"Courageous Californians", 3, 0, 1, 2, 1⟩] := by
  rw [Tally_rangeOrder ρ RangeOrder.insertion]
  decide

/-- C10: `parseOutcome` maps exactly the token "win" to Win, which is 3, and
exactly the token "draw" to Draw, which is 1; every other string, "loss", "Win"
and the empty string among them, is mapped to Loss, which is 0. -/
theorem parseOutcome_tokens :
    Win = 3 ∧ Draw = 1 ∧ Loss = 0 ∧
    (∀ s, parseOutcome s = Win ↔ s = "win") ∧
    (∀ s, parseOutcome s = Draw ↔ s = "draw") ∧
    (∀ s, parseOutcome s = Loss ↔ (s ≠ "win" ∧ s ≠ "draw")) ∧
    parseOutcome "loss" = Loss ∧ parseOutcome "Win" = Loss ∧ parseOutcome "" = Loss := by
  have key : ∀ s, parseOutcome s =
      if s = "draw" then 1 else if s = "loss" then 0 else if s = "win" then 3 else 0 := by
    intro s
    simp only [parseOutcome, outcomes, mapGet, Draw, Loss, Win, eq_comm]
    by_cases h1 : s = "draw"
    · simp [h1]
    · by_cases h2 : s = "loss"
      · simp [h2]
      · by_cases h3 : s = "win"
        · simp [h3]
        · simp [h1, h2, h3]
  refine ⟨rfl, rfl, rfl, ?_, ?_, ?_, by decide, by decide, by decide⟩
  · intro s
    rw [key]
    by_cases h1 : s = "draw"
    · subst h1; simp [Win]
    · by_cases h2 : s = "loss"
      · subst h2; simp [Win]
      · by_cases h3 : s = "win"
        · simp [h3, Win]
        · simp [h1, h2, h3, Win]
  · intro s
    rw [key]
    by_cases h1 : s = "draw"
    · simp [h1, Draw]
    · by_cases h2 : s = "loss"
      · subst h2; simp [Draw]
      · by_cases h3 : s = "win"
        · subst h3; simp [Draw]
        · simp [h1, h2, h3, Draw]
  · intro s
    rw [key]
    by_cases h1 : s = "draw"
    · simp [h1, Loss]
    · by_cases h2 : s = "loss"
      · subst h2; simp [Loss]
      · by_cases h3 : s = "win"
        · simp [h3, Loss]
        · simp [h1, h2, h3, Loss]

/-! ## Other order strings, stability and reversal -/

theorem rowLess_of_ne_Asc_eq (order : String) (ho : order ≠ Asc) :
    rowLess order = rowLess Desc := by
  funext a b
  unfold rowLess
  simp only [ho, Desc_ne_Asc, if_false]

theorem sinkInto_filter {α : Type} (less : α → α → Bool) (p : α → Bool)
    (hp : ∀ a b, p a = true → p b = true → less a b = false) (x : α) (front : List α) :
    (sinkInto less x front).filter p = (x :: front).filter p := by
  induction front with
  | nil => rfl
  | cons y front ih =>
    unfold sinkInto
    by_cases hxy : less x y = true
    · rw [if_pos hxy, List.filter_cons, ih]
      by_cases hpy : p y = true
      · have hpx : ¬ p x = true := by
          intro hpx
          have := hp x y hpx hpy
          rw [hxy] at this
          exact Bool.noConfusion this
        simp [List.filter_cons, hpy, hpx]
      · by_cases hpx : p x = true <;> simp [List.filter_cons, hpy, hpx]
    · rw [if_neg hxy]

theorem foldl_sinkInto_filter {α : Type} (less : α → α → Bool) (p : α → Bool)
    (hp : ∀ a b, p a = true → p b = true → less a b = false) (rows sortedPart : List α) :
    (rows.foldl (fun part x => sinkInto less x part) sortedPart).filter p =
      (rows.reverse ++ sortedPart).filter p := by
  induction rows generalizing sortedPart with
  | nil => rfl
  | cons x rows ih =>
    simp only [List.foldl_cons, List.reverse_cons, List.append_assoc, List.singleton_append]
    rw [ih, List.filter_append, List.filter_append, sinkInto_filter less p hp]

/-- The stable sort keeps the order of the elements among which `less` never
holds. -/
theorem SliceStable_filter {α : Type} (less : α → α → Bool) (p : α → Bool)
    (hp : ∀ a b, p a = true → p b = true → less a b = false) (rows : List α) :
    (SliceStable less rows).filter p = rows.filter p := by
  unfold SliceStable
  rw [List.filter_reverse, foldl_sinkInto_filter less p hp]
  simp [List.filter_reverse]

theorem rowLess_same_key (order : String) (a b : TableRow) (hp : a.Points = b.Points)
    (ht : a.Team = b.Team) : rowLess order a b = false := by
  by_cases ho : order = Asc
  · subst ho
    rw [rowLess_eq_false_Asc]
    exact Or.inr ⟨hp, le_of_eq ht.symm⟩
  · rw [rowLess_eq_false_of_ne_Asc order ho]
    exact Or.inr ⟨hp, le_of_eq ht⟩

theorem rowLess_Desc_false_iff_Asc (a b : TableRow) :
    rowLess Desc a b = false ↔ rowLess Asc b a = false := by
  rw [rowLess_eq_false_of_ne_Asc Desc Desc_ne_Asc, rowLess_eq_false_Asc]
  constructor
  · rintro (h | ⟨h1, h2⟩)
    · exact Or.inl h
    · exact Or.inr ⟨h1.symm, h2⟩
  · rintro (h | ⟨h1, h2⟩)
    · exact Or.inl h
    · exact Or.inr ⟨h1.symm, h2⟩

theorem rows_antisymm_of_nodup (order : String) (l : List TableRow)
    (hnd : (l.map TableRow.Team).Nodup) :
    ∀ a ∈ l, ∀ b ∈ l, rowLess order b a = false → rowLess order a b = false → a = b := by
  intro a ha b hb hab hba
  apply List.inj_on_of_nodup_map hnd ha hb
  by_cases ho : order = Asc
  · subst ho
    rw [rowLess_eq_false_Asc] at hab hba
    rcases hab with h | ⟨_, h2⟩ <;> rcases hba with h' | ⟨_, h4⟩
    · omega
    · omega
    · omega
    · exact le_antisymm h2 h4
  · rw [rowLess_eq_false_of_ne_Asc order ho] at hab hba
    rcases hab with h | ⟨_, h2⟩ <;> rcases hba with h' | ⟨_, h4⟩
    · omega
    · omega
    · omega
    · exact le_antisymm h4 h2

theorem Sort_Asc_eq_reverse_Desc (t t' : Table) (hnd : (t.Rows.map TableRow.Team).Nodup)
    (hp : t'.Rows.Perm t.Rows) :
    (Table.Sort t' Asc).Rows = (Table.Sort t Desc).Rows.reverse := by
  have hperm : (Table.Sort t' Asc).Rows.Perm (Table.Sort t Desc).Rows.reverse :=
    ((Sort_rows_perm t' Asc).trans hp).trans
      ((Sort_rows_perm t Desc).symm.trans (List.reverse_perm _).symm)
  have hnd' : ((Table.Sort t' Asc).Rows.map TableRow.Team).Nodup :=
    (((Sort_rows_perm t' Asc).trans hp).map TableRow.Team).nodup_iff.2 hnd
  have hsorted : (Table.Sort t Desc).Rows.reverse.Pairwise
      (fun a b => rowLess Asc b a = false) := by
    rw [List.pairwise_reverse]
    refine List.Pairwise.imp ?_ (Sort_rows_pairwise t Desc)
    intro a b h
    exact (rowLess_Desc_false_iff_Asc b a).1 h
  exact sorted_perm_unique _ _ _ hperm (Sort_rows_pairwise t' Asc) hsorted
    (rows_antisymm_of_nodup Asc _ hnd')

/-! ## Independence of the order of the matches -/

theorem rowOf_seenRows_foldl (ms : List Match) (k : String) :
    rowOf (seenRows ms) k = ms.foldl (matchStep k) (blankRow k) := by
  induction ms using List.reverseRecOn with
  | nil => rfl
  | append_singleton ms m ih =>
    rw [rowOf_seenRows_step, ih, List.foldl_append]
    rfl

theorem sideStep_comm (o₁ o₂ : Outcome) (r : TableRow) :
    sideStep o₁ (sideStep o₂ r) = sideStep o₂ (sideStep o₁ r) := by
  simp only [sideStep, setRowOutcome_fields, TableRow.mk.injEq]
  refine ⟨?_, ?_, ?_, ?_, ?_, ?_⟩ <;> first | trivial | rfl | exact Int.add_right_comm _ _ _

theorem matchStep_comm (k : String) (r : TableRow) (m₁ m₂ : Match) :
    matchStep k (matchStep k r m₁) m₂ = matchStep k (matchStep k r m₂) m₁ := by
  unfold matchStep
  by_cases h1 : m₁.Away = k <;> by_cases h2 : m₁.Home = k <;>
    by_cases h3 : m₂.Away = k <;> by_cases h4 : m₂.Home = k <;>
    simp only [h1, h2, h3, h4, if_true, if_false]
  · rw [sideStep_comm m₂.Outcome (awayOutcome m₁.Outcome), sideStep_comm m₂.Outcome m₁.Outcome,
      sideStep_comm (awayOutcome m₂.Outcome) (awayOutcome m₁.Outcome),
      sideStep_comm (awayOutcome m₂.Outcome) m₁.Outcome]
  · rw [sideStep_comm (awayOutcome m₂.Outcome) (awayOutcome m₁.Outcome),
      sideStep_comm (awayOutcome m₂.Outcome) m₁.Outcome]
  · rw [sideStep_comm m₂.Outcome (awayOutcome m₁.Outcome), sideStep_comm m₂.Outcome m₁.Outcome]
  · rw [sideStep_comm m₂.Outcome (awayOutcome m₁.Outcome),
      sideStep_comm (awayOutcome m₂.Outcome) (awayOutcome m₁.Outcome)]
  · rw [sideStep_comm (awayOutcome m₂.Outcome) (awayOutcome m₁.Outcome)]
  · rw [sideStep_comm m₂.Outcome (awayOutcome m₁.Outcome)]
  · rw [sideStep_comm m₂.Outcome m₁.Outcome,
      sideStep_comm (awayOutcome m₂.Outcome) m₁.Outcome]
  · rw [sideStep_comm (awayOutcome m₂.Outcome) m₁.Outcome]
  · rw [sideStep_comm m₂.Outcome m₁.Outcome]

theorem rowOf_seenRows_perm (ms ms' : List Match) (hp : ms.Perm ms') (k : String) :
    rowOf (seenRows ms) k = rowOf (seenRows ms') k := by
  rw [rowOf_seenRows_foldl, rowOf_seenRows_foldl]
  exact hp.foldl_eq' (fun x _ y _ z => matchStep_comm k z x y) _

theorem values_eq_map_rowOf (ms : List Match) :
    (seenRows ms).map Prod.snd = ((seenRows ms).map Prod.fst).map (rowOf (seenRows ms)) := by
  rw [List.map_map]
  apply List.map_congr_left
  intro e he
  obtain ⟨k, v⟩ := e
  simp [rowOf, mapGet_of_mem _ _ _ (nodup_keys_seenRows ms) he]

theorem BuildTable_rows_perm_of_perm (ρ ρ' : RangeOrder) (ms ms' : List Match)
    (hp : ms.Perm ms') : (BuildTable ρ ms).Rows.Perm (BuildTable ρ' ms').Rows := by
  have hkeys : ((seenRows ms).map Prod.fst).Perm ((seenRows ms').map Prod.fst) := by
    rw [List.perm_ext_iff_of_nodup (nodup_keys_seenRows ms) (nodup_keys_seenRows ms')]
    intro k
    rw [mem_keys_seenRows, mem_keys_seenRows]
    constructor
    · rintro ⟨m, hm, h⟩
      exact ⟨m, hp.mem_iff.1 hm, h⟩
    · rintro ⟨m, hm, h⟩
      exact ⟨m, hp.mem_iff.2 hm, h⟩
  have hvals : ((seenRows ms).map Prod.snd).Perm ((seenRows ms').map Prod.snd) := by
    rw [values_eq_map_rowOf ms, values_eq_map_rowOf ms']
    have hfun : rowOf (seenRows ms) = rowOf (seenRows ms') :=
      funext (rowOf_seenRows_perm ms ms' hp)
    rw [hfun]
    exact hkeys.map _
  unfold BuildTable
  exact (((ρ.perm _).map _).trans hvals).trans ((ρ'.perm _).map _).symm

/-! ## Claims on single records, stability and order -/

/-- C11: a record whose outcome token is none of "win", "draw" and "loss" is
parsed to the same match as the record with the token "loss", so both give the
same table; for different teams A and B the home team A has one match played,
one lost and no points, and the away team B one match played, one won and three
points. -/
theorem unknown_token_as_loss (ρ : RangeOrder) (A B s : String)
    (hw : s ≠ "win") (hd : s ≠ "draw") (hl : s ≠ "loss") :
    parseRecord [A, B, s] = parseRecord [A, B, "loss"] ∧
    BuildTable ρ [parseRecord [A, B, s]] = BuildTable ρ [parseRecord [A, B, "loss"]] ∧
    (A ≠ B →
      (BuildTable ρ [parseRecord [A, B, s]]).Rows.Perm
        [⟨A, 1, 0, 0, 1, 0⟩, ⟨B, 1, 1, 0, 0, 3⟩]) := by
  have hs : parseOutcome s = 0 := by
    simp [parseOutcome, outcomes, mapGet, Ne.symm hw, Ne.symm hd, Ne.symm hl]
  have hrec : parseRecord [A, B, s] = ⟨A, B, 0⟩ := by
    simp [parseRecord, hs]
  have hloss : parseRecord [A, B, "loss"] = ⟨A, B, 0⟩ := by
    simp [parseRecord, parseOutcome, outcomes, mapGet, Loss]
  refine ⟨by rw [hrec, hloss], by rw [hrec, hloss], ?_⟩
  intro hAB
  have hseen : seenRows [⟨A, B, 0⟩] = [(A, ⟨A, 1, 0, 0, 1, 0⟩), (B, ⟨B, 1, 1, 0, 0, 3⟩)] := by
    have ha : awayOutcome 0 = 3 := by decide
    simp [seenRows, foldMatch, updateSide, mapGet, mapSet, hAB, ha, setRowOutcome_fields,
      zeroRow, Win, Draw, Loss]
  rw [hrec]
  unfold BuildTable
  rw [hseen]
  exact (ρ.perm _).map Prod.snd

/-- Witness of C11: the token "forfeit". -/
theorem unknown_token_as_loss_witness :
    parseRecord ["A", "B", "forfeit"] = parseRecord ["A", "B", "loss"] ∧
    BuildTable RangeOrder.reversed [parseRecord ["A", "B", "forfeit"]] =
      BuildTable RangeOrder.reversed [parseRecord ["A", "B", "loss"]] ∧
    (("A" : String) ≠ "B" →
      (BuildTable RangeOrder.reversed [parseRecord ["A", "B", "forfeit"]]).Rows.Perm
        [⟨"A", 1, 0, 0, 1, 0⟩, ⟨"B", 1, 1, 0, 0, 3⟩]) :=
  unknown_token_as_loss RangeOrder.reversed "A" "B" "forfeit" (by decide) (by decide) (by decide)

/-- C15: the empty input text gives no match and no error, and the built table
and the tally of the empty match list have no rows. -/
theorem empty_input (ρ : RangeOrder) :
    ParseInput "" = ([], none) ∧
    (BuildTable ρ []).Rows = [] ∧
    (Tally ρ []).Rows = [] ∧
    (Tally ρ (ParseInput "").1).Rows = [] := by
  have hb : (BuildTable ρ []).Rows = [] := by
    have h := ρ.perm (seenRows [])
    have h' : ρ.visit (seenRows []) = [] := List.Perm.eq_nil h
    simp [BuildTable, h']
  have ht : (Tally ρ []).Rows = [] := by
    have hperm := Sort_rows_perm (BuildTable ρ []) Desc
    rw [hb] at hperm
    exact List.Perm.eq_nil hperm
  exact ⟨by decide, hb, ht, ht⟩

/-- C16, as stated: it fails for a team that plays a draw against itself, whose
single row has two matches drawn. -/
theorem single_match_counterexample :
    ¬ ∃ r ∈ (BuildTable RangeOrder.insertion [Match.mk "A" "A" Draw]).Rows,
      r.Team = "A" ∧ r.MatchesDrawn = 1 := by
  decide

/-- C16, amended: the table of the single match (A, B, Win) has a row for A
with one match won and a row for B with one match lost, for all A and B; the
table of the single match (A, B, Draw) has rows for A and B with one match
drawn each when A and B are different teams, and one row with two matches drawn
when they are the same. -/
theorem single_match_rows (ρ : RangeOrder) (A B : String) :
    (∃ r ∈ (BuildTable ρ [Match.mk A B Win]).Rows, r.Team = A ∧ r.MatchesWon = 1) ∧
    (∃ r ∈ (BuildTable ρ [Match.mk A B Win]).Rows, r.Team = B ∧ r.MatchesLost = 1) ∧
    (A ≠ B →
      (∃ r ∈ (BuildTable ρ [Match.mk A B Draw]).Rows, r.Team = A ∧ r.MatchesDrawn = 1) ∧
      (∃ r ∈ (BuildTable ρ [Match.mk A B Draw]).Rows, r.Team = B ∧ r.MatchesDrawn = 1)) ∧
    (A = B →
      ∃ r ∈ (BuildTable ρ [Match.mk A B Draw]).Rows, r.Team = A ∧ r.MatchesDrawn = 2) := by
  have hrow : ∀ (o : Outcome) (k : String), (k = A ∨ k = B) →
      rowOf (seenRows [Match.mk A B o]) k ∈ (BuildTable ρ [Match.mk A B o]).Rows := by
    intro o k hk
    refine (mem_rows_BuildTable ρ _ _).2 ⟨k, (mem_keys_seenRows _ k).2 ?_, rfl⟩
    refine ⟨Match.mk A B o, by simp, ?_⟩
    rcases hk with h | h
    · exact Or.inl h.symm
    · exact Or.inr h.symm
  have hstep : ∀ (o : Outcome) (k : String), rowOf (seenRows [Match.mk A B o]) k =
      matchStep k (blankRow k) (Match.mk A B o) := by
    intro o k
    rw [rowOf_seenRows_foldl]
    rfl
  have ha3 : awayOutcome 3 = 0 := by decide
  have ha1 : awayOutcome 1 = 1 := by decide
  refine ⟨⟨_, hrow Win A (Or.inl rfl), team_rowOf_seenRows _ A, ?_⟩,
    ⟨_, hrow Win B (Or.inr rfl), team_rowOf_seenRows _ B, ?_⟩, ?_, ?_⟩
  · rw [hstep]
    by_cases h : B = A <;>
      simp [matchStep, sideStep, setRowOutcome_fields, blankRow, zeroRow, h, Win, Draw, Loss, ha3]
  · rw [hstep]
    by_cases h : A = B <;>
      simp [matchStep, sideStep, setRowOutcome_fields, blankRow, zeroRow, h, Win, Draw, Loss, ha3]
  · intro hAB
    refine ⟨⟨_, hrow Draw A (Or.inl rfl), team_rowOf_seenRows _ A, ?_⟩,
      ⟨_, hrow Draw B (Or.inr rfl), team_rowOf_seenRows _ B, ?_⟩⟩
    · rw [hstep]
      simp [matchStep, sideStep, setRowOutcome_fields, blankRow, zeroRow, Ne.symm hAB, Win, Draw,
        Loss]
    · rw [hstep]
      simp [matchStep, sideStep, setRowOutcome_fields, blankRow, zeroRow, hAB, Win, Draw, Loss,
        ha1]
  · intro hAB
    subst hAB
    refine ⟨_, hrow Draw A (Or.inl rfl), team_rowOf_seenRows _ A, ?_⟩
    rw [hstep]
    simp [matchStep, sideStep, setRowOutcome_fields, blankRow, zeroRow, Win, Draw, Loss, ha1]

/-- C17: `Sort` is stable.  For every table, order string, number of points and
team name, the rows with these points and this name stand in the result in the
same sequence as in the input. -/
theorem Sort_stable (t : Table) (order : String) (P : Int) (T : String) :
    (Table.Sort t order).Rows.filter (fun r => decide (r.Points = P ∧ r.Team = T)) =
      t.Rows.filter (fun r => decide (r.Points = P ∧ r.Team = T)) := by
  refine SliceStable_filter (rowLess order) _ ?_ t.Rows
  intro a b ha hb
  have ha' : a.Points = P ∧ a.Team = T := by simpa using ha
  have hb' : b.Points = P ∧ b.Team = T := by simpa using hb
  exact rowLess_same_key order a b (ha'.1.trans hb'.1.symm) (ha'.2.trans hb'.2.symm)

/-- C18: for a table with pairwise distinct team names the rows of `Sort` with
order Asc are the rows of `Sort` with order Desc in reverse, whatever the
initial order of the rows; so sorting the Desc result with Asc reverses it, and
sorting the Asc result with Desc reverses it. -/
theorem Sort_Asc_reverses_Desc (t : Table) (hnd : (t.Rows.map TableRow.Team).Nodup) :
    (∀ t' : Table, t'.Rows.Perm t.Rows →
      (Table.Sort t' Asc).Rows = (Table.Sort t Desc).Rows.reverse) ∧
    (Table.Sort (Table.Sort t Desc) Asc).Rows = (Table.Sort t Desc).Rows.reverse ∧
    (Table.Sort (Table.Sort t Asc) Desc).Rows = (Table.Sort t Asc).Rows.reverse := by
  refine ⟨fun t' hp => Sort_Asc_eq_reverse_Desc t t' hnd hp,
    Sort_Asc_eq_reverse_Desc t _ hnd (Sort_rows_perm t Desc), ?_⟩
  have h1 : (Table.Sort t Asc).Rows = (Table.Sort t Desc).Rows.reverse :=
    Sort_Asc_eq_reverse_Desc t t hnd (List.Perm.refl _)
  have hnd' : ((Table.Sort t Asc).Rows.map TableRow.Team).Nodup :=
    ((Sort_rows_perm t Asc).map TableRow.Team).nodup_iff.2 hnd
  have h2 : Table.Sort (Table.Sort t Asc) Desc = Table.Sort t Desc :=
    Sort_eq_of_perm _ _ Desc (Sort_rows_perm t Asc) hnd'
  rw [h2, h1, List.reverse_reverse]

/-- Witness of C18: three teams, two of them level on points. -/
theorem Sort_Asc_reverses_Desc_witness :
    ((Table.mk [⟨"X", 1, 1, 0, 0, 3⟩, ⟨"Z", 1, 0, 0, 1, 0⟩, ⟨"Y", 1, 1, 0, 0, 3⟩]).Rows.map
      TableRow.Team).Nodup ∧
    (Table.Sort (Table.Sort ⟨[⟨"X", 1, 1, 0, 0, 3⟩, ⟨"Z", 1, 0, 0, 1, 0⟩, ⟨"Y", 1, 1, 0, 0, 3⟩]⟩
      Desc) Asc).Rows =
      (Table.Sort ⟨[⟨"X", 1, 1, 0, 0, 3⟩, ⟨"Z", 1, 0, 0, 1, 0⟩, ⟨"Y", 1, 1, 0, 0, 3⟩]⟩
        Desc).Rows.reverse :=
  ⟨by decide,
    (Sort_Asc_reverses_Desc ⟨[⟨"X", 1, 1, 0, 0, 3⟩, ⟨"Z", 1, 0, 0, 1, 0⟩, ⟨"Y", 1, 1, 0, 0, 3⟩]⟩
      (by decide)).2.1⟩

/-- C19: the tally does not depend on the order of the matches nor on the
iteration order of the map: for a rearrangement of the match list and any two
iteration orders the two tallies are the same sequence of rows. -/
theorem Tally_order_independent (ρ ρ' : RangeOrder) (ms ms' : List Match)
    (hp : ms.Perm ms') : Tally ρ ms = Tally ρ' ms' :=
  Sort_eq_of_perm _ _ Desc (BuildTable_rows_perm_of_perm ρ ρ' ms ms' hp)
    (nodup_teams_BuildTable ρ ms)

/-- Witness of C19: two matches in both orders, one of them with an outcome
that is none of the three constants. -/
theorem Tally_order_independent_witness :
    [Match.mk "A" "B" 2, Match.mk "B" "C" Win].Perm [Match.mk "B" "C" Win, Match.mk "A" "B" 2] ∧
    Tally RangeOrder.insertion [Match.mk "A" "B" 2, Match.mk "B" "C" Win] =
      Tally RangeOrder.reversed [Match.mk "B" "C" Win, Match.mk "A" "B" 2] :=
  ⟨List.Perm.swap _ _ _,
    Tally_order_independent RangeOrder.insertion RangeOrder.reversed _ _ (List.Perm.swap _ _ _)⟩

/-- C20: `Sort` treats every order string other than "asc" as descending: it
gives the same table as with the order "desc". -/
theorem Sort_other_order (t : Table) (o : String) (ho : o ≠ "asc") :
    Table.Sort t o = Table.Sort t "desc" := by
  have h : rowLess o = rowLess Desc := rowLess_of_ne_Asc_eq o ho
  show Table.Sort t o = Table.Sort t Desc
  unfold Table.Sort
  rw [h]

/-- Witness of C20: the order strings "ASC", "" and "ascending". -/
theorem Sort_other_order_witness :
    Table.Sort ⟨[⟨"C", 3, 0, 1, 2, 1⟩, ⟨"D", 3, 2, 1, 0, 7⟩]⟩ "ASC" =
      Table.Sort ⟨[⟨"C", 3, 0, 1, 2, 1⟩, ⟨"D", 3, 2, 1, 0, 7⟩]⟩ "desc" ∧
    Table.Sort ⟨[⟨"C", 3, 0, 1, 2, 1⟩, ⟨"D", 3, 2, 1, 0, 7⟩]⟩ "" =
      Table.Sort ⟨[⟨"C", 3, 0, 1, 2, 1⟩, ⟨"D", 3, 2, 1, 0, 7⟩]⟩ "desc" ∧
    Table.Sort ⟨[⟨"C", 3, 0, 1, 2, 1⟩, ⟨"D", 3, 2, 1, 0, 7⟩]⟩ "ascending" =
      Table.Sort ⟨[⟨"C", 3, 0, 1, 2, 1⟩, ⟨"D", 3, 2, 1, 0, 7⟩]⟩ "desc" :=
  ⟨Sort_other_order _ "ASC" (by decide), Sort_other_order _ "" (by decide),
    Sort_other_order _ "ascending" (by decide)⟩

/-! ## Lines and fields of an input text -/

theorem splitAtChar_ne_nil (sep : Char) (s : List Char) : splitAtChar sep s ≠ [] := by
  induction s with
  | nil => simp [splitAtChar]
  | cons c cs ih =>
    unfold splitAtChar
    by_cases h : c = sep
    · simp [h]
    · rw [if_neg h]
      cases hsp : splitAtChar sep cs with
      | nil => exact absurd hsp ih
      | cons piece pieces => simp

theorem splitAtChar_cons_sep (sep : Char) (cs : List Char) :
    splitAtChar sep (sep :: cs) = [] :: splitAtChar sep cs := by
  rw [splitAtChar, if_pos rfl]

theorem splitAtChar_cons_other (sep c : Char) (cs : List Char) (h : c ≠ sep) :
    ∃ piece pieces, splitAtChar sep cs = piece :: pieces ∧
      splitAtChar sep (c :: cs) = (c :: piece) :: pieces := by
  cases hsp : splitAtChar sep cs with
  | nil => exact absurd hsp (splitAtChar_ne_nil sep cs)
  | cons piece pieces =>
    refine ⟨piece, pieces, rfl, ?_⟩
    rw [splitAtChar, if_neg h, hsp]

/-- Joining the pieces with the separator gives the text back. -/
theorem intercalate_splitAtChar (sep : Char) (s : List Char) :
    [sep].intercalate (splitAtChar sep s) = s := by
  induction s with
  | nil => rfl
  | cons c cs ih =>
    by_cases h : c = sep
    · subst h
      rw [splitAtChar_cons_sep]
      obtain ⟨piece, pieces, hsp⟩ := List.exists_cons_of_ne_nil (splitAtChar_ne_nil c cs)
      rw [hsp] at ih ⊢
      simp only [List.intercalate, List.intersperse, List.flatten, List.nil_append,
        List.singleton_append] at ih ⊢
      rw [ih]
    · obtain ⟨piece, pieces, hsp, hsp'⟩ := splitAtChar_cons_other sep c cs h
      rw [hsp] at ih
      rw [hsp']
      cases pieces with
      | nil =>
        simp only [List.intercalate, List.intersperse, List.flatten, List.append_nil] at ih ⊢
        rw [ih]
      | cons p ps =>
        simp only [List.intercalate, List.intersperse, List.flatten, List.cons_append] at ih ⊢
        rw [ih]

/-- No piece contains the separator. -/
theorem sep_not_mem_piece (sep : Char) (s : List Char) :
    ∀ piece ∈ splitAtChar sep s, sep ∉ piece := by
  induction s with
  | nil => simp [splitAtChar]
  | cons c cs ih =>
    by_cases h : c = sep
    · subst h
      rw [splitAtChar_cons_sep]
      intro piece hp
      rcases List.mem_cons.1 hp with rfl | hp'
      · simp
      · exact ih piece hp'
    · obtain ⟨piece, pieces, hsp, hsp'⟩ := splitAtChar_cons_other sep c cs h
      rw [hsp']
      rw [hsp] at ih
      intro q hq
      rcases List.mem_cons.1 hq with rfl | hq'
      · intro hmem
        rcases List.mem_cons.1 hmem with heq | hmem'
        · exact h heq.symm
        · exact ih piece (List.mem_cons_self _ _) hmem'
      · exact ih q (List.mem_cons_of_mem _ hq')

theorem mem_of_mem_piece (sep : Char) (s : List Char) (x : Char) :
    ∀ piece ∈ splitAtChar sep s, x ∈ piece → x ∈ s := by
  induction s with
  | nil => simp [splitAtChar]
  | cons c cs ih =>
    by_cases h : c = sep
    · subst h
      rw [splitAtChar_cons_sep]
      intro piece hp hx
      rcases List.mem_cons.1 hp with rfl | hp'
      · simp at hx
      · exact List.mem_cons_of_mem _ (ih piece hp' hx)
    · obtain ⟨piece, pieces, hsp, hsp'⟩ := splitAtChar_cons_other sep c cs h
      rw [hsp']
      rw [hsp] at ih
      intro q hq hx
      rcases List.mem_cons.1 hq with rfl | hq'
      · rcases List.mem_cons.1 hx with heq | hx'
        · exact heq ▸ List.mem_cons_self _ _
        · exact List.mem_cons_of_mem _ (ih piece (List.mem_cons_self _ _) hx')
      · exact List.mem_cons_of_mem _ (ih q (List.mem_cons_of_mem _ hq') hx)

/-- The number of pieces is the number of separators plus one. -/
theorem length_splitAtChar (sep : Char) (s : List Char) :
    (splitAtChar sep s).length = s.count sep + 1 := by
  induction s with
  | nil => rfl
  | cons c cs ih =>
    by_cases h : c = sep
    · subst h
      rw [splitAtChar_cons_sep]
      simp [ih]
    · obtain ⟨piece, pieces, hsp, hsp'⟩ := splitAtChar_cons_other sep c cs h
      rw [hsp']
      rw [hsp] at ih
      rw [List.count_cons_of_ne (fun hc => h hc.symm)]
      simpa using ih

theorem splitAtChar_of_not_mem (sep : Char) (s : List Char) (h : sep ∉ s) :
    splitAtChar sep s = [s] := by
  induction s with
  | nil => rfl
  | cons c cs ih =>
    have hc : c ≠ sep := fun hc => h (hc ▸ List.mem_cons_self _ _)
    have hcs : sep ∉ cs := fun hm => h (List.mem_cons_of_mem _ hm)
    rw [splitAtChar, if_neg hc, ih hcs]

theorem splitAtChar_append (sep : Char) (s rest : List Char) (h : sep ∉ s) :
    splitAtChar sep (s ++ sep :: rest) = s :: splitAtChar sep rest := by
  induction s with
  | nil => exact splitAtChar_cons_sep sep rest
  | cons c cs ih =>
    have hc : c ≠ sep := fun hc => h (hc ▸ List.mem_cons_self _ _)
    have hcs : sep ∉ cs := fun hm => h (List.mem_cons_of_mem _ hm)
    rw [List.cons_append, splitAtChar, if_neg hc, ih hcs]

/-- The match of a line that is written as three fields. -/
theorem matchOfLine_fields (home away token : List Char)
    (hh : ';' ∉ home) (ha : ';' ∉ away) (ht : ';' ∉ token) :
    matchOfLine (home ++ ';' :: (away ++ ';' :: token)) =
      { Home := String.mk home, Away := String.mk away,
        Outcome := parseOutcome (String.mk token) } := by
  unfold matchOfLine
  rw [splitAtChar_append _ _ _ hh, splitAtChar_append _ _ _ ha, splitAtChar_of_not_mem _ _ ht]
  rfl

/-! ## The reader on input without double quotes -/

theorem checkFields_ok (fields : List (List Char)) (h : ∀ f ∈ fields, quoteChar ∉ f) :
    checkFields fields = .ok (fields.map String.mk) := by
  induction fields with
  | nil => rfl
  | cons f rest ih =>
    have hf : quoteChar ∉ f := h f (List.mem_cons_self _ _)
    have hhead : ¬ f.head? = some quoteChar := by
      intro hc
      cases f with
      | nil => simp at hc
      | cons c cs =>
        simp only [List.head?_cons, Option.some.injEq] at hc
        exact hf (hc ▸ List.mem_cons_self _ _)
    rw [checkFields, if_neg hhead, if_neg hf,
      ih (fun g hg => h g (List.mem_cons_of_mem _ hg))]
    rfl

theorem parseRecord_fields (line : List Char) :
    parseRecord ((splitAtChar ';' line).map String.mk) = matchOfLine line := by
  unfold parseRecord matchOfLine
  have hget : ∀ n, ((splitAtChar ';' line).map String.mk).getD n "" =
      String.mk ((splitAtChar ';' line).getD n []) := by
    intro n
    simp only [List.getD_eq_getElem?_getD, List.getElem?_map]
    cases (splitAtChar ';' line)[n]? <;> rfl
  rw [hget, hget, hget]

theorem readRecord_of_noQuote (line : List Char) (hq : quoteChar ∉ line) :
    readRecord line =
      if line.count ';' + 1 = 3 then .ok ((splitAtChar ';' line).map String.mk)
      else .error .fieldCount := by
  unfold readRecord
  rw [checkFields_ok _ (fun f hf hmem => hq (mem_of_mem_piece ';' line quoteChar f hf hmem))]
  simp only [List.length_map, length_splitAtChar]

theorem parseLines_skip (line : List Char) (rest : List (List Char)) (ms : List Match)
    (h : dropCR line = []) : parseLines (line :: rest) ms = parseLines rest ms := by
  rw [parseLines, if_pos h]

theorem parseLines_record (line : List Char) (rest : List (List Char)) (ms : List Match)
    (hq : quoteChar ∉ dropCR line) (hne : dropCR line ≠ [])
    (h3 : (dropCR line).count ';' + 1 = 3) :
    parseLines (line :: rest) ms = parseLines rest (ms ++ [matchOfLine (dropCR line)]) := by
  rw [parseLines, if_neg hne, readRecord_of_noQuote _ hq, if_pos h3]
  simp only [parseRecord_fields]

theorem parseLines_fieldCount (line : List Char) (rest : List (List Char)) (ms : List Match)
    (hq : quoteChar ∉ dropCR line) (hne : dropCR line ≠ [])
    (h3 : (dropCR line).count ';' + 1 ≠ 3) :
    parseLines (line :: rest) ms = (ms, some .fieldCount) := by
  rw [parseLines, if_neg hne, readRecord_of_noQuote _ hq, if_neg h3]

theorem matchesOfLines_cons_nil (lines : List (List Char)) :
    matchesOfLines ([] :: lines) = matchesOfLines lines := by
  simp [matchesOfLines]

theorem matchesOfLines_cons (line : List Char) (lines : List (List Char)) (h : line ≠ []) :
    matchesOfLines (line :: lines) = matchOfLine line :: matchesOfLines lines := by
  simp [matchesOfLines, h]

/-- All lines are empty or have three fields: every non-empty line gives its
match and there is no error. -/
theorem parseLines_good (lines : List (List Char)) (ms : List Match)
    (hq : ∀ l ∈ lines.map dropCR, quoteChar ∉ l)
    (hgood : ∀ l ∈ lines.map dropCR, l = [] ∨ l.count ';' + 1 = 3) :
    parseLines lines ms = (ms ++ matchesOfLines (lines.map dropCR), none) := by
  induction lines generalizing ms with
  | nil => simp [parseLines, matchesOfLines]
  | cons line rest ih =>
    have hq' : ∀ l ∈ rest.map dropCR, quoteChar ∉ l :=
      fun l hl => hq l (by simp only [List.map_cons]; exact List.mem_cons_of_mem _ hl)
    have hgood' : ∀ l ∈ rest.map dropCR, l = [] ∨ l.count ';' + 1 = 3 :=
      fun l hl => hgood l (by simp only [List.map_cons]; exact List.mem_cons_of_mem _ hl)
    have hline : dropCR line ∈ (line :: rest).map dropCR := by simp
    by_cases he : dropCR line = []
    · rw [parseLines_skip _ _ _ he, ih ms hq' hgood', List.map_cons, he,
        matchesOfLines_cons_nil]
    · have h3 : (dropCR line).count ';' + 1 = 3 := (hgood _ hline).resolve_left he
      rw [parseLines_record _ _ _ (hq _ hline) he h3, ih _ hq' hgood', List.map_cons,
        matchesOfLines_cons _ _ he, List.append_assoc]
      rfl

/-- A first non-empty line without three fields: the matches of the lines before
it are returned together with the field-count error. -/
theorem parseLines_bad (pre : List (List Char)) (lines : List (List Char)) (ms : List Match)
    (bad : List Char) (post : List (List Char))
    (hsplit : lines.map dropCR = pre ++ bad :: post)
    (hq : ∀ l ∈ lines.map dropCR, quoteChar ∉ l)
    (hgood : ∀ l ∈ pre, l = [] ∨ l.count ';' + 1 = 3)
    (hne : bad ≠ []) (h3 : bad.count ';' + 1 ≠ 3) :
    parseLines lines ms = (ms ++ matchesOfLines pre, some .fieldCount) := by
  induction pre generalizing lines ms with
  | nil =>
    cases lines with
    | nil => simp at hsplit
    | cons line rest =>
      simp only [List.map_cons, List.nil_append, List.cons.injEq] at hsplit
      have hline : dropCR line ∈ (line :: rest).map dropCR := by simp
      have hqb := hq _ hline
      rw [← hsplit.1] at hne h3
      rw [parseLines_fieldCount _ _ _ hqb hne h3]
      simp [matchesOfLines]
  | cons p pre ih =>
    cases lines with
    | nil => simp at hsplit
    | cons line rest =>
      simp only [List.map_cons, List.cons_append, List.cons.injEq] at hsplit
      have hline : dropCR line ∈ (line :: rest).map dropCR := by simp
      have hq' : ∀ l ∈ rest.map dropCR, quoteChar ∉ l :=
        fun l hl => hq l (by simp only [List.map_cons]; exact List.mem_cons_of_mem _ hl)
      have hgood' : ∀ l ∈ pre, l = [] ∨ l.count ';' + 1 = 3 :=
        fun l hl => hgood l (List.mem_cons_of_mem _ hl)
      have hp := hgood p (List.mem_cons_self _ _)
      rw [← hsplit.1] at hp
      by_cases he : dropCR line = []
      · rw [parseLines_skip _ _ _ he, ih rest ms hsplit.2 hq' hgood', ← hsplit.1, he,
          matchesOfLines_cons_nil]
      · rw [parseLines_record _ _ _ (hq _ hline) he (hp.resolve_left he),
          ih rest _ hsplit.2 hq' hgood', ← hsplit.1, matchesOfLines_cons _ _ he,
          List.append_assoc]
        rfl

/-- Either every line is empty or has three fields, or there is a first line
that is neither. -/
theorem good_or_first_bad (lines : List (List Char)) :
    (∀ l ∈ lines, l = [] ∨ l.count ';' + 1 = 3) ∨
    ∃ pre bad post, lines = pre ++ bad :: post ∧
      (∀ l ∈ pre, l = [] ∨ l.count ';' + 1 = 3) ∧ bad ≠ [] ∧ bad.count ';' + 1 ≠ 3 := by
  induction lines with
  | nil => exact Or.inl (by simp)
  | cons line rest ih =>
    by_cases hl : line = [] ∨ line.count ';' + 1 = 3
    · rcases ih with hall | ⟨pre, bad, post, hsplit, hpre, hne, h3⟩
      · left
        intro l hmem
        rcases List.mem_cons.1 hmem with rfl | hmem'
        · exact hl
        · exact hall l hmem'
      · right
        refine ⟨line :: pre, bad, post, by rw [hsplit]; rfl, ?_, hne, h3⟩
        intro l hmem
        rcases List.mem_cons.1 hmem with rfl | hmem'
        · exact hl
        · exact hpre l hmem'
    · right
      refine ⟨[], line, rest, rfl, by simp, fun h => hl (Or.inl h), fun h => hl (Or.inr h)⟩

theorem noQuote_dropCR (line : List Char) (h : quoteChar ∉ line) : quoteChar ∉ dropCR line := by
  unfold dropCR
  split
  · exact fun hm => h (List.mem_of_mem_dropLast hm)
  · exact h

theorem noQuote_textLines (input : String) (hq : quoteChar ∉ input.data) :
    ∀ l ∈ textLines input, quoteChar ∉ l := by
  intro l hl
  obtain ⟨raw, hraw, rfl⟩ := List.mem_map.1 hl
  exact noQuote_dropCR raw (fun hm => hq (mem_of_mem_piece '\n' _ _ raw hraw hm))

theorem dropCR_of_noCR (line : List Char) (h : '\r' ∉ line) : dropCR line = line := by
  unfold dropCR
  split
  · rename_i hlast
    exact absurd (List.mem_of_getLast?_eq_some hlast) h
  · rfl

theorem textLines_of_noCR (input : String) (hcr : '\r' ∉ input.data) :
    textLines input = splitAtChar '\n' input.data := by
  unfold textLines
  conv => rhs; rw [← List.map_id (splitAtChar '\n' input.data)]
  apply List.map_congr_left
  intro l hl
  exact dropCR_of_noCR l (fun hm => hcr (mem_of_mem_piece '\n' _ _ l hl hm))

/-! ## The reader on any input -/

theorem mem_piece_of_mem (sep : Char) (s : List Char) (x : Char) (hx : x ∈ s) (hne : x ≠ sep) :
    ∃ piece ∈ splitAtChar sep s, x ∈ piece := by
  induction s with
  | nil => simp at hx
  | cons c cs ih =>
    by_cases h : c = sep
    · subst h
      rw [splitAtChar_cons_sep]
      rcases List.mem_cons.1 hx with heq | hx'
      · exact absurd heq hne
      · obtain ⟨piece, hp, hmem⟩ := ih hx'
        exact ⟨piece, List.mem_cons_of_mem _ hp, hmem⟩
    · obtain ⟨piece, pieces, hsp, hsp'⟩ := splitAtChar_cons_other sep c cs h
      rw [hsp']
      rw [hsp] at ih
      rcases List.mem_cons.1 hx with heq | hx'
      · exact ⟨c :: piece, List.mem_cons_self _ _, heq ▸ List.mem_cons_self _ _⟩
      · obtain ⟨q, hq, hmem⟩ := ih hx'
        rcases List.mem_cons.1 hq with rfl | hq'
        · exact ⟨c :: q, List.mem_cons_self _ _, List.mem_cons_of_mem _ hmem⟩
        · exact ⟨q, List.mem_cons_of_mem _ hq', hmem⟩

theorem checkFields_error_of_quote (fields : List (List Char))
    (h : ∃ f ∈ fields, quoteChar ∈ f) : ∃ e, checkFields fields = .error e := by
  induction fields with
  | nil =>
    obtain ⟨f, hf, _⟩ := h
    simp at hf
  | cons f rest ih =>
    by_cases hhead : f.head? = some quoteChar
    · exact ⟨.quotedField, by rw [checkFields, if_pos hhead]⟩
    · by_cases hq : quoteChar ∈ f
      · exact ⟨.bareQuote, by rw [checkFields, if_neg hhead, if_pos hq]⟩
      · have hrest : ∃ g ∈ rest, quoteChar ∈ g := by
          obtain ⟨g, hg, hmem⟩ := h
          rcases List.mem_cons.1 hg with rfl | hg'
          · exact absurd hmem hq
          · exact ⟨g, hg', hmem⟩
        obtain ⟨e, he⟩ := ih hrest
        exact ⟨e, by rw [checkFields, if_neg hhead, if_neg hq, he]⟩

/-- A line gives a record only if it has no double quote and three fields. -/
theorem readRecord_ok (line : List Char) (record : List String)
    (h : readRecord line = .ok record) :
    quoteChar ∉ line ∧ line.count ';' + 1 = 3 ∧
      record = (splitAtChar ';' line).map String.mk := by
  by_cases hq : quoteChar ∈ line
  · exfalso
    obtain ⟨piece, hp, hmem⟩ := mem_piece_of_mem ';' line quoteChar hq (by decide)
    obtain ⟨e, he⟩ := checkFields_error_of_quote _ ⟨piece, hp, hmem⟩
    rw [readRecord, he] at h
    exact Except.noConfusion h
  · rw [readRecord_of_noQuote line hq] at h
    by_cases h3 : line.count ';' + 1 = 3
    · rw [if_pos h3] at h
      exact ⟨hq, h3, (Except.ok.inj h).symm⟩
    · rw [if_neg h3] at h
      exact Except.noConfusion h

/-- Whatever error the reader reports, the loop returns it together with the
matches of the lines before the line that failed. -/
theorem parseLines_error (lines : List (List Char)) (ms : List Match) (e : CsvError)
    (herr : (parseLines lines ms).2 = some e) :
    ∃ pre bad post, lines.map dropCR = pre ++ bad :: post ∧
      (∀ l ∈ pre, l = [] ∨ (quoteChar ∉ l ∧ l.count ';' + 1 = 3)) ∧
      bad ≠ [] ∧ readRecord bad = .error e ∧
      parseLines lines ms = (ms ++ matchesOfLines pre, some e) := by
  induction lines generalizing ms with
  | nil => simp [parseLines] at herr
  | cons line rest ih =>
    by_cases he : dropCR line = []
    · rw [parseLines_skip _ _ _ he] at herr ⊢
      obtain ⟨pre, bad, post, hsplit, hpre, hne, hbad, hres⟩ := ih ms herr
      refine ⟨[] :: pre, bad, post, by rw [List.map_cons, he, hsplit]; rfl, ?_, hne, hbad, ?_⟩
      · intro l hl
        rcases List.mem_cons.1 hl with rfl | hl'
        · exact Or.inl rfl
        · exact hpre l hl'
      · rw [hres, matchesOfLines_cons_nil]
    · cases hrec : readRecord (dropCR line) with
      | error e' =>
        have hres : parseLines (line :: rest) ms = (ms, some e') := by
          rw [parseLines, if_neg he, hrec]
        rw [hres] at herr ⊢
        have hee : e' = e := Option.some.inj herr
        subst hee
        refine ⟨[], dropCR line, rest.map dropCR, rfl, by simp, he, hrec, ?_⟩
        simp [matchesOfLines]
      | ok record =>
        obtain ⟨hq, h3, hfields⟩ := readRecord_ok _ _ hrec
        have hres : parseLines (line :: rest) ms =
            parseLines rest (ms ++ [matchOfLine (dropCR line)]) :=
          parseLines_record _ _ _ hq he h3
        rw [hres] at herr ⊢
        obtain ⟨pre, bad, post, hsplit, hpre, hne, hbad, hres'⟩ := ih _ herr
        refine ⟨dropCR line :: pre, bad, post, by rw [List.map_cons, hsplit]; rfl, ?_, hne,
          hbad, ?_⟩
        · intro l hl
          rcases List.mem_cons.1 hl with rfl | hl'
          · exact Or.inr ⟨hq, h3⟩
          · exact hpre l hl'
        · rw [hres', matchesOfLines_cons _ _ he, List.append_assoc]
          rfl

/-! ## Claims on parsing -/

/-- C12: for an input text without double quotes and carriage returns whose
lines are empty or have exactly three fields separated by semicolons,
`ParseInput` gives no error and one match for every non-empty line, in the order
of the lines; the match of a line has the first field as home team, the second
as away team and the outcome of the third field.  The lines are the pieces of
the text between the newlines. -/
theorem ParseInput_wellformed (input : String) (hq : quoteChar ∉ input.data)
    (hcr : '\r' ∉ input.data)
    (hlines : ∀ line ∈ splitAtChar '\n' input.data, line = [] ∨ line.count ';' + 1 = 3) :
    ParseInput input =
      (((splitAtChar '\n' input.data).filter (fun l => decide (l ≠ []))).map matchOfLine, none) ∧
    ['\n'].intercalate (splitAtChar '\n' input.data) = input.data ∧
    (∀ home away token : List Char, ';' ∉ home → ';' ∉ away → ';' ∉ token →
      matchOfLine (home ++ ';' :: (away ++ ';' :: token)) =
        { Home := String.mk home, Away := String.mk away,
          Outcome := parseOutcome (String.mk token) }) := by
  refine ⟨?_, intercalate_splitAtChar '\n' input.data, matchOfLine_fields⟩
  have hlines' : textLines input = splitAtChar '\n' input.data := textLines_of_noCR input hcr
  have h := parseLines_good (splitAtChar '\n' input.data) []
    (noQuote_textLines input hq) (by
      intro l hl
      have hl' : l ∈ textLines input := hl
      rw [hlines'] at hl'
      exact hlines l hl')
  have hmap : (splitAtChar '\n' input.data).map dropCR = splitAtChar '\n' input.data := hlines'
  rw [hmap] at h
  unfold ParseInput
  rw [h]
  rfl

/-- Witness of C12: two records with an empty line between them and a final
newline. -/
theorem ParseInput_wellformed_witness :
    quoteChar ∉ ("a;b;win\n\nc;d;draw\n" : String).data ∧
    '\r' ∉ ("a;b;win\n\nc;d;draw\n" : String).data ∧
    (∀ line ∈ splitAtChar '\n' ("a;b;win\n\nc;d;draw\n" : String).data,
      line = [] ∨ line.count ';' + 1 = 3) ∧
    ParseInput "a;b;win\n\nc;d;draw\n" = ([Match.mk "a" "b" Win, Match.mk "c" "d" Draw], none) := by
  refine ⟨by decide, by decide, by decide, ?_⟩
  rw [(ParseInput_wellformed "a;b;win\n\nc;d;draw\n" (by decide) (by decide) (by decide)).1]
  decide

/-- C13: for an input text without double quotes `ParseInput` returns an error
exactly when some non-empty line has a number of fields other than three, the
number of fields being the number of semicolons plus one; at the first such line
parsing stops with the field-count error, and the matches returned are those of
the lines before it, whatever follows.  The lines are taken as the reader takes
them, without the carriage return of a line end. -/
theorem ParseInput_error_iff (input : String) (hq : quoteChar ∉ input.data) :
    ((ParseInput input).2 ≠ none ↔
      ∃ line ∈ textLines input, line ≠ [] ∧ line.count ';' + 1 ≠ 3) ∧
    (∀ pre bad post, textLines input = pre ++ bad :: post →
      (∀ l ∈ pre, l = [] ∨ l.count ';' + 1 = 3) → bad ≠ [] → bad.count ';' + 1 ≠ 3 →
      (ParseInput input).2 = some .fieldCount ∧ (ParseInput input).1 = matchesOfLines pre) := by
  have hbad : ∀ pre bad post, textLines input = pre ++ bad :: post →
      (∀ l ∈ pre, l = [] ∨ l.count ';' + 1 = 3) → bad ≠ [] → bad.count ';' + 1 ≠ 3 →
      ParseInput input = (matchesOfLines pre, some .fieldCount) := by
    intro pre bad post hsplit hpre hne h3
    have h := parseLines_bad pre (splitAtChar '\n' input.data) [] bad post hsplit
      (noQuote_textLines input hq) hpre hne h3
    unfold ParseInput
    rw [h]
    rfl
  refine ⟨?_, ?_⟩
  · constructor
    · intro herr
      rcases good_or_first_bad (textLines input) with hall | ⟨pre, bad, post, hsplit, _, hne, h3⟩
      · exfalso
        apply herr
        have h := parseLines_good (splitAtChar '\n' input.data) []
          (noQuote_textLines input hq) hall
        unfold ParseInput
        rw [h]
      · exact ⟨bad, by rw [hsplit]; simp, hne, h3⟩
    · rintro ⟨line, hline, hne, h3⟩
      rcases good_or_first_bad (textLines input) with hall | ⟨pre, bad, post, hsplit, hpre, hne', h3'⟩
      · rcases hall line hline with h | h
        · exact absurd h hne
        · exact absurd h h3
      · rw [hbad pre bad post hsplit hpre hne' h3']
        simp
  · intro pre bad post hsplit hpre hne h3
    rw [hbad pre bad post hsplit hpre hne h3]
    exact ⟨rfl, rfl⟩

/-- Witness of C13: the second line has two fields; the third line is a good
record that gives no match. -/
theorem ParseInput_error_iff_witness :
    quoteChar ∉ ("a;b;win\r\nc;d\ne;f;loss" : String).data ∧
    textLines "a;b;win\r\nc;d\ne;f;loss" =
      ["a;b;win".data] ++ "c;d".data :: ["e;f;loss".data] ∧
    (ParseInput "a;b;win\r\nc;d\ne;f;loss").2 = some .fieldCount ∧
    (ParseInput "a;b;win\r\nc;d\ne;f;loss").1 = matchesOfLines ["a;b;win".data] :=
  ⟨by decide, by decide,
    (ParseInput_error_iff "a;b;win\r\nc;d\ne;f;loss" (by decide)).2
      ["a;b;win".data] "c;d".data ["e;f;loss".data] (by decide) (by decide) (by decide)
      (by decide)⟩

/-- C14, as stated: it fails.  On a malformed second record `ParseInput` returns
the error and, with it, the match of the first record. -/
theorem ParseInput_error_counterexample :
    (ParseInput "a;b;win\nc;d\ne;f;loss").2 = some .fieldCount ∧
    (ParseInput "a;b;win\nc;d\ne;f;loss").1 = [Match.mk "a" "b" Win] := by
  decide

/-- C14, amended: when `ParseInput` fails, on any input text and with any error
of the reader, there is a first line on which the reader fails; every line
before it is empty or a record of three fields, and the result is the error
together with the matches of the lines before that line.  No match of that
line or of a later line is returned.  On a line without double quotes the
error is the field-count error. -/
theorem ParseInput_error_keeps_matches (input : String) (e : CsvError)
    (herr : (ParseInput input).2 = some e) :
    ∃ pre bad post, textLines input = pre ++ bad :: post ∧
      (∀ l ∈ pre, l = [] ∨ (quoteChar ∉ l ∧ l.count ';' + 1 = 3)) ∧
      bad ≠ [] ∧ readRecord bad = .error e ∧
      (quoteChar ∉ bad → e = .fieldCount ∧ bad.count ';' + 1 ≠ 3) ∧
      ParseInput input = (matchesOfLines pre, some e) := by
  obtain ⟨pre, bad, post, hsplit, hpre, hne, hbad, hres⟩ :=
    parseLines_error (splitAtChar '\n' input.data) [] e herr
  refine ⟨pre, bad, post, hsplit, hpre, hne, hbad, ?_, ?_⟩
  · intro hq
    rw [readRecord_of_noQuote bad hq] at hbad
    by_cases h3 : bad.count ';' + 1 = 3
    · rw [if_pos h3] at hbad
      exact Except.noConfusion hbad
    · rw [if_neg h3] at hbad
      exact ⟨(Except.error.inj hbad).symm, h3⟩
  · unfold ParseInput
    rw [hres]
    rfl

/-- Witness of the amended C14.  First input: a second line with a double quote
inside its third field, after one record and before a line that is never read.
Second input: a first line of two fields, followed by a line with a quoted
field that is never read. -/
theorem ParseInput_error_keeps_matches_witness :
    ((ParseInput (String.mk ("a;b;win\nc;d;dr".data ++ quoteChar :: "aw\ne;f".data))).2 =
        some .bareQuote ∧
      (ParseInput (String.mk ("a;b;win\nc;d;dr".data ++ quoteChar :: "aw\ne;f".data))).1 =
        [Match.mk "a" "b" Win] ∧
      ∃ pre bad post,
        textLines (String.mk ("a;b;win\nc;d;dr".data ++ quoteChar :: "aw\ne;f".data)) =
          pre ++ bad :: post ∧
        (∀ l ∈ pre, l = [] ∨ (quoteChar ∉ l ∧ l.count ';' + 1 = 3)) ∧
        bad ≠ [] ∧ readRecord bad = .error .bareQuote ∧
        (quoteChar ∉ bad → CsvError.bareQuote = .fieldCount ∧ bad.count ';' + 1 ≠ 3) ∧
        ParseInput (String.mk ("a;b;win\nc;d;dr".data ++ quoteChar :: "aw\ne;f".data)) =
          (matchesOfLines pre, some .bareQuote)) ∧
    ((ParseInput (String.mk ("a;b\n".data ++ quoteChar :: 'x' :: quoteChar :: ";y;z".data))).2 =
        some .fieldCount ∧
      ∃ pre bad post,
        textLines (String.mk ("a;b\n".data ++ quoteChar :: 'x' :: quoteChar :: ";y;z".data)) =
          pre ++ bad :: post ∧
        (∀ l ∈ pre, l = [] ∨ (quoteChar ∉ l ∧ l.count ';' + 1 = 3)) ∧
        bad ≠ [] ∧ readRecord bad = .error .fieldCount ∧
        (quoteChar ∉ bad → CsvError.fieldCount = .fieldCount ∧ bad.count ';' + 1 ≠ 3) ∧
        ParseInput (String.mk ("a;b\n".data ++ quoteChar :: 'x' :: quoteChar :: ";y;z".data)) =
          (matchesOfLines pre, some .fieldCount)) :=
  ⟨⟨by decide, by decide,
      ParseInput_error_keeps_matches
        (String.mk ("a;b;win\nc;d;dr".data ++ quoteChar :: "aw\ne;f".data)) .bareQuote
        (by decide)⟩,
    ⟨by decide,
      ParseInput_error_keeps_matches
        (String.mk ("a;b\n".data ++ quoteChar :: 'x' :: quoteChar :: ";y;z".data)) .fieldCount
        (by decide)⟩⟩

end tournament
